import Mathlib

/-!
Shallow embedding of the tic-tac-toe engine in `src/final.py`
(human vs unbeatable AI; minimax with optional alpha-beta pruning).

Conventions of the embedding:
* a Python board `List[str]` over {'X','O',' '} becomes `List Cell`;
* Python float values (including `-math.inf`, `math.inf`) used for
  minimax scores become `XVal` (an `Int` extended with two infinities);
* the in-place mutation `board[m] = AI; ...; board[m] = EMPTY` is made
  explicit by threading the board through the recursion: `minimax`
  returns the final state of the board object next to the search result,
  so the restore discipline is a provable statement;
* Python's unbounded recursion is given a structural fuel parameter;
  fuel 9 suffices for every 9-cell board (each recursive call fills one
  of the at most 9 empty cells, and a full board is terminal);
* the module-level global `USE_ALPHA_BETA` read by `minimax` is passed
  as an explicit first parameter `useAB`; `best_ai_move` applies the
  global constant, exactly as the Python call does.
-/

/-- Cell marks: `' '`, `'X'`, `'O'` in the Python source. -/
inductive Cell where
  | E : Cell
  | X : Cell
  | O : Cell
deriving DecidableEq, Repr

/-- Configuration constant `HUMAN = 'X'`. -/
def HUMAN : Cell := Cell.X

/-- Configuration constant `AI = 'O'`. -/
def AI : Cell := Cell.O

/-- Configuration constant `EMPTY = ' '`. -/
def EMPTY : Cell := Cell.E

/-- Configuration constant `USE_ALPHA_BETA = True`. -/
def USE_ALPHA_BETA : Bool := true

/-- The 8 win lines: 3 rows, 3 columns, 2 diagonals, in source order. -/
def WIN_LINES : List (Nat × Nat × Nat) :=
  [(0, 1, 2), (3, 4, 5), (6, 7, 8),
   (0, 3, 6), (1, 4, 7), (2, 5, 8),
   (0, 4, 8), (2, 4, 6)]

/-- Cell access `board[i]`; all source accesses are in bounds on 9-cell
boards, so the out-of-bounds default is never observable there. -/
def cellAt (board : List Cell) (i : Nat) : Cell :=
  board.getD i EMPTY

/-- Test of one line for `winner`: Python
`board[a] != EMPTY and board[a] == board[b] == board[c]`, returning the
winning mark when the test passes. -/
def lineMark (board : List Cell) (t : Nat × Nat × Nat) : Option Cell :=
  if (!(cellAt board t.1 == EMPTY)) && (cellAt board t.1 == cellAt board t.2.1) &&
      (cellAt board t.2.1 == cellAt board t.2.2) then
    some (cellAt board t.1)
  else
    none

/-- Python `winner`: return the mark of the first win line whose three
cells agree and are non-empty, else `None`. -/
def winner (board : List Cell) : Option Cell :=
  WIN_LINES.findSome? (lineMark board)

/-- Python `available_moves`: indices of the empty cells, in ascending
order (list comprehension over `enumerate(board)`). -/
def available_moves (board : List Cell) : List Nat :=
  board.enum.filterMap (fun iv => if iv.2 == EMPTY then some iv.1 else none)

/-- Python `is_terminal`: someone won or no empty cell remains. -/
def is_terminal (board : List Cell) : Bool :=
  (winner board).isSome || (available_moves board).isEmpty

/-- Python `score`: +1 if the AI won, -1 if the human won, 0 otherwise. -/
def score (board : List Cell) : Int :=
  let w := winner board
  if w == some AI then 1
  else if w == some HUMAN then -1
  else 0

/-- Python `move_order`: heuristic move ordering — center, then corners,
then edges, keeping only the empty cells. -/
def move_order (board : List Cell) : List Nat :=
  let center := if cellAt board 4 == EMPTY then [4] else []
  let corners := [0, 2, 6, 8].filter (fun i => cellAt board i == EMPTY)
  let edges := [1, 3, 5, 7].filter (fun i => cellAt board i == EMPTY)
  center ++ corners ++ edges

/-- Minimax scores with the two infinities `-math.inf` and `math.inf`
used by the Python source as initial best values and alpha-beta bounds. -/
inductive XVal where
  | negInf : XVal
  | fin : Int → XVal
  | posInf : XVal
deriving DecidableEq, Repr

/-- Comparison `a <= b` on extended scores. -/
def XVal.le : XVal → XVal → Bool
  | XVal.negInf, _ => true
  | _, XVal.posInf => true
  | XVal.fin a, XVal.fin b => a ≤ b
  | XVal.posInf, _ => false
  | XVal.fin _, XVal.negInf => false

/-- Comparison `a < b` on extended scores. -/
def XVal.lt (a b : XVal) : Bool := !(XVal.le b a)

/-- Python `max(a, b)`. -/
def XVal.max (a b : XVal) : XVal := if XVal.le a b then b else a

/-- Python `min(a, b)`. -/
def XVal.min (a b : XVal) : XVal := if XVal.le a b then a else b

/-- The maximizing branch of the Python `minimax` loop
`for m in order: ...` with `board[m] = AI`.  `rec` is the recursive call
at one fuel less (minimizing); the board object's state is threaded and
returned, making the place/recurse/unplace discipline explicit. -/
def maxLoop (useAB : Bool)
    (rec : List Cell → XVal → XVal → (XVal × Option Nat) × List Cell) :
    List Nat → List Cell → XVal → Option Nat → XVal → XVal →
    (XVal × Option Nat) × List Cell
  | [], board, bestScore, bestMove, _, _ => ((bestScore, bestMove), board)
  | m :: rest, board, bestScore, bestMove, alpha, beta =>
    let r := rec (board.set m AI) alpha beta
    let s := r.1.1
    let board1 := r.2.set m EMPTY
    let bestScore1 := if XVal.lt bestScore s then s else bestScore
    let bestMove1 := if XVal.lt bestScore s then some m else bestMove
    if useAB then
      let alpha1 := XVal.max alpha bestScore1
      if XVal.le beta alpha1 then ((bestScore1, bestMove1), board1)
      else maxLoop useAB rec rest board1 bestScore1 bestMove1 alpha1 beta
    else
      maxLoop useAB rec rest board1 bestScore1 bestMove1 alpha beta

/-- The minimizing branch of the Python `minimax` loop, placing
`board[m] = HUMAN` and shrinking `beta`. -/
def minLoop (useAB : Bool)
    (rec : List Cell → XVal → XVal → (XVal × Option Nat) × List Cell) :
    List Nat → List Cell → XVal → Option Nat → XVal → XVal →
    (XVal × Option Nat) × List Cell
  | [], board, bestScore, bestMove, _, _ => ((bestScore, bestMove), board)
  | m :: rest, board, bestScore, bestMove, alpha, beta =>
    let r := rec (board.set m HUMAN) alpha beta
    let s := r.1.1
    let board1 := r.2.set m EMPTY
    let bestScore1 := if XVal.lt s bestScore then s else bestScore
    let bestMove1 := if XVal.lt s bestScore then some m else bestMove
    if useAB then
      let beta1 := XVal.min beta bestScore1
      if XVal.le beta1 alpha then ((bestScore1, bestMove1), board1)
      else minLoop useAB rec rest board1 bestScore1 bestMove1 alpha beta1
    else
      minLoop useAB rec rest board1 bestScore1 bestMove1 alpha beta

/-- Python `minimax(board, maximizing, alpha, beta)`.  Returns the pair
`(best_score, best_move)` together with the final state of the board
object.  `fuel` bounds the recursion depth structurally; a call with
`fuel` at least the number of empty cells never reaches the fuel-0
fallback on a non-terminal board, because every recursive call fills one
empty cell and a board with no empty cell is terminal. -/
def minimax (useAB : Bool) :
    Nat → List Cell → Bool → XVal → XVal → (XVal × Option Nat) × List Cell
  | 0, board, _, _, _ =>
    if is_terminal board then ((XVal.fin (score board), none), board)
    else ((XVal.fin 0, none), board)
  | Nat.succ f, board, maximizing, alpha, beta =>
    if is_terminal board then ((XVal.fin (score board), none), board)
    else
      let order := move_order board
      if maximizing then
        maxLoop useAB (fun b a2 b2 => minimax useAB f b false a2 b2)
          order board XVal.negInf none alpha beta
      else
        minLoop useAB (fun b a2 b2 => minimax useAB f b true a2 b2)
          order board XVal.posInf none alpha beta

/-- Python `best_ai_move`: the move component of
`minimax(board, maximizing=True)` with the default window
`(-math.inf, math.inf)` and the global `USE_ALPHA_BETA`. -/
def best_ai_move (board : List Cell) : Option Nat :=
  (minimax USE_ALPHA_BETA 9 board true XVal.negInf XVal.posInf).1.2

/-- The empty starting board `[EMPTY] * 9`. -/
def emptyBoard : List Cell := List.replicate 9 EMPTY

/-- Full enumeration of games from a human-to-move position: the human
plays every available move; after each move the game-loop checks of
`src/final.py` are applied (human win, AI win, draw, else continue); on
the engine turn the move returned by `best_ai_move` is played.  Returns
`false` iff some human strategy reaches a board won by the human (a
missing engine move is also counted as a failure, conservatively).
`fuel` counts human turns; 9 is more than enough from the empty board. -/
def noHumanWin : Nat → List Cell → Bool
  | 0, _ => false
  | Nat.succ f, board =>
    (available_moves board).all (fun m =>
      let b1 := board.set m HUMAN
      if winner b1 == some HUMAN then false
      else if winner b1 == some AI then true
      else if (available_moves b1).isEmpty then true
      else
        match best_ai_move b1 with
        | none => false
        | some k =>
          let b2 := b1.set k AI
          if winner b2 == some HUMAN then false
          else if winner b2 == some AI then true
          else if (available_moves b2).isEmpty then true
          else noHumanWin f b2)

/-- Python `str.split()` on the whitespace-separated runs of a character
list; `acc` holds the current run reversed. -/
def splitWs : List Char → List Char → List (List Char)
  | [], acc => if acc.isEmpty then [] else [acc.reverse]
  | c :: rest, acc =>
    if c.isWhitespace then
      if acc.isEmpty then splitWs rest []
      else acc.reverse :: splitWs rest []
    else splitWs rest (c :: acc)

/-- Python `s.strip()`: drop whitespace from both ends. -/
def stripWs (l : List Char) : List Char :=
  ((l.dropWhile Char.isWhitespace).reverse.dropWhile Char.isWhitespace).reverse

/-- Numeric value of a decimal digit character. -/
def digitVal (c : Char) : Nat := c.toNat - 48

/-- Python `int(p)` on a string of decimal digits. -/
def natOfDigits (l : List Char) : Nat :=
  l.foldl (fun n c => 10 * n + digitVal c) 0

/-- Python `parse_move`: strip, turn commas into spaces, then read either
two whitespace-separated digit groups or a two-character digit string as
a 1-based (row, col) pair, and map it to the 0-based board index; `none`
on anything else or out-of-range coordinates. -/
def parse_move (s : String) : Option Nat :=
  let t := (stripWs s.data).map (fun ch => if ch == ',' then ' ' else ch)
  let parts := (splitWs t []).filter (fun p => !p.isEmpty && p.all Char.isDigit)
  let rc : Option (Nat × Nat) :=
    match parts with
    | [p1, p2] => some (natOfDigits p1, natOfDigits p2)
    | _ =>
      match t with
      | [c1, c2] =>
        if c1.isDigit && c2.isDigit then some (digitVal c1, digitVal c2)
        else none
      | _ => none
  match rc with
  | none => none
  | some (r, c) =>
    if 1 ≤ r && r ≤ 3 && 1 ≤ c && c ≤ 3 then some ((r - 1) * 3 + (c - 1))
    else none

/-- Python `human_turn` acceptance of one raw input line, as a single
step: `none` means the input is rejected (`m is None or board[m] !=
EMPTY`), and the loop re-prompts with the board unchanged; otherwise the
board with the human mark placed at the parsed index. -/
def human_step (board : List Cell) (raw : String) : Option (List Cell) :=
  match parse_move raw with
  | none => none
  | some m => if cellAt board m == EMPTY then some (board.set m HUMAN) else none

/-- Error kind of the spec's move-application interface. -/
inductive IllegalMoveError where
  | illegalMove : IllegalMoveError
deriving DecidableEq, Repr

/-- Modelled from the spec: `applyMove(board, index, mark) ->
Result<void, IllegalMoveError>` of spec section 6 is declared there as
the in-process API but has no named counterpart in `src` (the game loop
inlines the board write after its own validity checks); it fails if
`index` is out of `[0, 9)` or the target cell is non-Empty, and the
board mutation must not partially apply on failure.  The state of the
in-place mutated board is returned next to the error component. -/
def applyMove (board : List Cell) (index : Int) (mark : Cell) :
    List Cell × Option IllegalMoveError :=
  if 0 ≤ index ∧ index < 9 then
    if cellAt board index.toNat == EMPTY then
      (board.set index.toNat mark, none)
    else (board, some IllegalMoveError.illegalMove)
  else (board, some IllegalMoveError.illegalMove)

/-- A line `t` is occupied by the mark `w` when its three cells all hold
`w` and `w` is not the empty mark. -/
def occupies (board : List Cell) (w : Cell) (t : Nat × Nat × Nat) : Prop :=
  w ≠ EMPTY ∧ cellAt board t.1 = w ∧ cellAt board t.2.1 = w ∧
    cellAt board t.2.2 = w

/-! Helper definitions used only by the proofs below. -/

/-- Value component of a `minimax` call. -/
def searchVal (useAB : Bool) (f : Nat) (b : List Cell) (mx : Bool)
    (a2 b2 : XVal) : XVal :=
  (minimax useAB f b mx a2 b2).1.1

/-- Move component of a `minimax` call. -/
def searchMove (useAB : Bool) (f : Nat) (b : List Cell) (mx : Bool)
    (a2 b2 : XVal) : Option Nat :=
  (minimax useAB f b mx a2 b2).1.2

/-- Reference game value: plain minimax with pruning disabled. -/
def mmVal (f : Nat) (b : List Cell) (mx : Bool) : XVal :=
  searchVal false f b mx XVal.negInf XVal.posInf

/-- Unpruned value of the child reached by the maximizing player
playing `m`. -/
def chValMax (f : Nat) (b : List Cell) (m : Nat) : XVal :=
  mmVal f (b.set m AI) false

/-- Unpruned value of the child reached by the minimizing player
playing `m`. -/
def chValMin (f : Nat) (b : List Cell) (m : Nat) : XVal :=
  mmVal f (b.set m HUMAN) true

/-- Running maximum of unpruned child values, the reference semantics
of the maximizing loop of `minimax` without pruning. -/
def uMax (f : Nat) (b : List Cell) : List Nat → XVal → XVal
  | [], g => g
  | m :: rest, g =>
    uMax f b rest (if XVal.lt g (chValMax f b m) then chValMax f b m else g)

/-- Running minimum of unpruned child values, the reference semantics
of the minimizing loop of `minimax` without pruning. -/
def uMin (f : Nat) (b : List Cell) : List Nat → XVal → XVal
  | [], g => g
  | m :: rest, g =>
    uMin f b rest (if XVal.lt (chValMin f b m) g then chValMin f b m else g)

/-- Number of empty cells of a board. -/
def emptyCount (board : List Cell) : Nat :=
  (available_moves board).length

/-- Exchange of the two marks, used to transfer minimizing-root values to
maximizing-root values on symmetric boards. -/
def swapCell : Cell → Cell
  | Cell.E => Cell.E
  | Cell.X => Cell.O
  | Cell.O => Cell.X

/-- Board with the two marks exchanged. -/
def swapB (board : List Cell) : List Cell :=
  board.map swapCell

/-- Negation on minimax scores, exchanging the two infinities. -/
def xneg : XVal → XVal
  | XVal.negInf => XVal.posInf
  | XVal.fin a => XVal.fin (-a)
  | XVal.posInf => XVal.negInf

/-! Order lemmas for `XVal`. -/

theorem xle_refl (a : XVal) : XVal.le a a = true := by
  cases a <;> simp [XVal.le]

theorem xle_trans {a b c : XVal} (h1 : XVal.le a b = true)
    (h2 : XVal.le b c = true) : XVal.le a c = true := by
  cases a <;> cases b <;> cases c <;> simp [XVal.le] at * <;> omega

theorem xle_total (a b : XVal) : XVal.le a b = true ∨ XVal.le b a = true := by
  cases a <;> cases b <;> simp [XVal.le] <;> omega

theorem xle_antisymm {a b : XVal} (h1 : XVal.le a b = true)
    (h2 : XVal.le b a = true) : a = b := by
  cases a <;> cases b <;> simp [XVal.le] at * <;> omega

theorem xlt_eq_not_le (a b : XVal) : XVal.lt a b = !(XVal.le b a) := rfl

theorem xlt_iff (a b : XVal) : XVal.lt a b = true ↔ ¬ XVal.le b a = true := by
  simp [XVal.lt]

theorem xnot_lt_iff (a b : XVal) : XVal.lt a b = false ↔ XVal.le b a = true := by
  simp [XVal.lt]

theorem xle_of_not_lt {a b : XVal} (h : ¬ XVal.lt a b = true) :
    XVal.le b a = true :=
  (xnot_lt_iff a b).mp (Bool.eq_false_iff.mpr h)

theorem xle_of_lt {a b : XVal} (h : XVal.lt a b = true) : XVal.le a b = true := by
  rcases xle_total a b with h2 | h2
  · exact h2
  · exact absurd h2 ((xlt_iff a b).mp h)

theorem xlt_of_lt_of_le {a b c : XVal} (h1 : XVal.lt a b = true)
    (h2 : XVal.le b c = true) : XVal.lt a c = true := by
  rw [xlt_iff] at h1 ⊢
  intro hca
  exact h1 (xle_trans h2 hca)

theorem xlt_of_le_of_lt {a b c : XVal} (h1 : XVal.le a b = true)
    (h2 : XVal.lt b c = true) : XVal.lt a c = true := by
  rw [xlt_iff] at h2 ⊢
  intro hca
  exact h2 (xle_trans hca h1)

theorem xlt_irrefl (a : XVal) : XVal.lt a a = false := by
  rw [xnot_lt_iff]; exact xle_refl a

theorem xle_negInf_iff (a : XVal) : XVal.le a XVal.negInf = true ↔ a = XVal.negInf := by
  cases a <;> simp [XVal.le]

theorem xposInf_le_iff (a : XVal) : XVal.le XVal.posInf a = true ↔ a = XVal.posInf := by
  cases a <;> simp [XVal.le]

theorem xnegInf_le (a : XVal) : XVal.le XVal.negInf a = true := by
  cases a <;> rfl

theorem xle_posInf (a : XVal) : XVal.le a XVal.posInf = true := by
  cases a <;> simp [XVal.le]

theorem xlt_to_negInf (a : XVal) : XVal.lt a XVal.negInf = false := by
  rw [xnot_lt_iff]; exact xnegInf_le a

theorem xmax_negInf_left (a : XVal) : XVal.max XVal.negInf a = a := by
  simp [XVal.max, xnegInf_le a]

theorem xmax_eq_right {a b : XVal} (h : XVal.le a b = true) :
    XVal.max a b = b := by
  simp [XVal.max, h]

theorem xle_max_left (a b : XVal) : XVal.le a (XVal.max a b) = true := by
  unfold XVal.max
  by_cases h : XVal.le a b = true
  · simpa [h]
  · simpa [h] using xle_refl a

theorem xle_max_right (a b : XVal) : XVal.le b (XVal.max a b) = true := by
  unfold XVal.max
  by_cases h : XVal.le a b = true
  · simpa [h] using xle_refl b
  · rcases xle_total a b with h2 | h2
    · exact absurd h2 h
    · simpa [h]

theorem xle_max_iff {c a b : XVal} :
    XVal.le c (XVal.max a b) = true ↔ XVal.le c a = true ∨ XVal.le c b = true := by
  constructor
  · intro h
    unfold XVal.max at h
    by_cases hab : XVal.le a b = true
    · simp [hab] at h; right; exact h
    · simp [hab] at h; left; exact h
  · intro h
    rcases h with h | h
    · exact xle_trans h (xle_max_left a b)
    · exact xle_trans h (xle_max_right a b)

theorem xmax_le_iff {a b c : XVal} :
    XVal.le (XVal.max a b) c = true ↔ XVal.le a c = true ∧ XVal.le b c = true := by
  constructor
  · intro h
    exact ⟨xle_trans (xle_max_left a b) h, xle_trans (xle_max_right a b) h⟩
  · intro ⟨h1, h2⟩
    unfold XVal.max
    by_cases hab : XVal.le a b = true <;> simp [hab, h1, h2]

theorem xmax_eq_left {a b : XVal} (h : XVal.le b a = true) :
    XVal.max a b = a := by
  unfold XVal.max
  by_cases hc : XVal.le a b = true
  · simp [hc, xle_antisymm hc h]
  · simp [hc]

theorem xmax_absorb {a g1 g2 : XVal} (h : XVal.le g1 g2 = true) :
    XVal.max (XVal.max a g1) g2 = XVal.max a g2 := by
  rcases xle_total a g2 with h1 | h1
  · rw [xmax_eq_right h1]
    have h2 : XVal.le (XVal.max a g1) g2 = true := xmax_le_iff.mpr ⟨h1, h⟩
    rw [xmax_eq_right h2]
  · have hg1a : XVal.le g1 a = true := xle_trans h h1
    rw [xmax_eq_left hg1a, xmax_eq_left h1]

theorem xmin_eq_left {a b : XVal} (h : XVal.le a b = true) :
    XVal.min a b = a := by
  simp [XVal.min, h]

theorem xmin_eq_right {a b : XVal} (h : XVal.le b a = true) :
    XVal.min a b = b := by
  unfold XVal.min
  by_cases hc : XVal.le a b = true
  · simp [hc, xle_antisymm hc h]
  · simp [hc]

theorem xmin_le_left (a b : XVal) : XVal.le (XVal.min a b) a = true := by
  unfold XVal.min
  by_cases h : XVal.le a b = true
  · simpa [h] using xle_refl a
  · rcases xle_total a b with h2 | h2
    · exact absurd h2 h
    · simpa [h]

theorem xmin_le_right (a b : XVal) : XVal.le (XVal.min a b) b = true := by
  unfold XVal.min
  by_cases h : XVal.le a b = true
  · simpa [h]
  · simpa [h] using xle_refl b

theorem xmin_le_iff {c a b : XVal} :
    XVal.le (XVal.min a b) c = true ↔ XVal.le a c = true ∨ XVal.le b c = true := by
  constructor
  · intro h
    unfold XVal.min at h
    by_cases hab : XVal.le a b = true
    · simp [hab] at h; left; exact h
    · simp [hab] at h; right; exact h
  · intro h
    rcases h with h | h
    · exact xle_trans (xmin_le_left a b) h
    · exact xle_trans (xmin_le_right a b) h

theorem xle_min_iff {a b c : XVal} :
    XVal.le c (XVal.min a b) = true ↔ XVal.le c a = true ∧ XVal.le c b = true := by
  constructor
  · intro h
    exact ⟨xle_trans h (xmin_le_left a b), xle_trans h (xmin_le_right a b)⟩
  · intro ⟨h1, h2⟩
    unfold XVal.min
    by_cases hab : XVal.le a b = true <;> simp [hab, h1, h2]

theorem xmin_posInf_left (a : XVal) : XVal.min XVal.posInf a = a := by
  unfold XVal.min
  by_cases h : XVal.le XVal.posInf a = true
  · simp [h, (xposInf_le_iff a).mp h]
  · simp [h]

theorem xmin_absorb {b g1 g2 : XVal} (h : XVal.le g2 g1 = true) :
    XVal.min (XVal.min b g1) g2 = XVal.min b g2 := by
  rcases xle_total g2 b with h1 | h1
  · have hg2b : XVal.le g2 (XVal.min b g1) = true :=
      xle_min_iff.mpr ⟨h1, h⟩
    rw [xmin_eq_right hg2b, xmin_eq_right h1]
  · have hb : XVal.le b g1 = true := xle_trans h1 h
    rw [xmin_eq_left hb, xmin_eq_left h1]

/-! Board access and update lemmas. -/

theorem cellAt_set_self (l : List Cell) (m : Nat) (v : Cell)
    (hm : m < l.length) : cellAt (l.set m v) m = v := by
  induction l generalizing m with
  | nil => simp at hm
  | cons c t ih =>
    cases m with
    | zero => rfl
    | succ m2 =>
      simp only [List.set, cellAt, List.getD] at *
      exact ih m2 (by simpa using hm)

theorem cellAt_set_ne (l : List Cell) (m i : Nat) (v : Cell)
    (hne : i ≠ m) : cellAt (l.set m v) i = cellAt l i := by
  induction l generalizing m i with
  | nil => rfl
  | cons c t ih =>
    cases m with
    | zero =>
      cases i with
      | zero => exact absurd rfl hne
      | succ i2 => rfl
    | succ m2 =>
      cases i with
      | zero => rfl
      | succ i2 =>
        simp only [List.set, cellAt, List.getD] at *
        exact ih m2 i2 (fun h => hne (by rw [h]))

theorem set_restore (l : List Cell) (m : Nat) (x : Cell)
    (h : cellAt l m = EMPTY) : (l.set m x).set m EMPTY = l := by
  induction l generalizing m with
  | nil => rfl
  | cons c t ih =>
    cases m with
    | zero =>
      simp only [cellAt, List.getD, List.get?, Option.getD] at h
      simp [List.set, h]
    | succ m2 =>
      simp only [cellAt, List.getD, List.get?] at h
      simp only [List.set]
      rw [ih m2 h]

theorem length_set_cell (l : List Cell) (m : Nat) (v : Cell) :
    (l.set m v).length = l.length := List.length_set l m v

/-! Properties of `move_order` (also covering claims C6 and C10). -/

theorem move_order_eq_filter (board : List Cell) :
    move_order board =
      [4, 0, 2, 6, 8, 1, 3, 5, 7].filter (fun i => cellAt board i == EMPTY) := by
  show move_order board =
    List.filter (fun i => cellAt board i == EMPTY) ([4] ++ [0, 2, 6, 8] ++ [1, 3, 5, 7])
  rw [List.filter_append, List.filter_append]
  unfold move_order
  by_cases h : cellAt board 4 == EMPTY <;>
    simp only [List.filter, h, List.append_assoc] <;> rfl

theorem move_order_mem {board : List Cell} {m : Nat}
    (h : m ∈ move_order board) : cellAt board m = EMPTY ∧ m < 9 := by
  rw [move_order_eq_filter] at h
  have h2 := List.of_mem_filter h
  have h3 := List.mem_of_mem_filter h
  refine ⟨by simpa using h2, ?_⟩
  fin_cases h3 <;> omega

/-! The restore invariant: each loop iteration undoes its placement, so
the board object comes back unchanged (claim C3). -/

theorem maxLoop_restore (useAB : Bool)
    (rec : List Cell → XVal → XVal → (XVal × Option Nat) × List Cell)
    (hrec : ∀ b2 a2 β2, (rec b2 a2 β2).2 = b2) :
    ∀ (moves : List Nat) (b : List Cell),
      (∀ m ∈ moves, cellAt b m = EMPTY) →
      ∀ g bm α β, (maxLoop useAB rec moves b g bm α β).2 = b := by
  intro moves
  induction moves with
  | nil => intro b hmv g bm α β; rfl
  | cons m rest ih =>
    intro b hmv g bm α β
    have hm : cellAt b m = EMPTY := hmv m (by simp)
    have hrest : ∀ k ∈ rest, cellAt b k = EMPTY :=
      fun k hk => hmv k (by simp [hk])
    simp only [maxLoop]
    rw [hrec, set_restore b m AI hm]
    cases useAB
    · simp only [Bool.false_eq_true, if_false]
      exact ih b hrest _ _ _ _
    · simp only [if_true]
      split <;> split <;> first
        | rfl
        | exact ih b hrest _ _ _ _

theorem minLoop_restore (useAB : Bool)
    (rec : List Cell → XVal → XVal → (XVal × Option Nat) × List Cell)
    (hrec : ∀ b2 a2 β2, (rec b2 a2 β2).2 = b2) :
    ∀ (moves : List Nat) (b : List Cell),
      (∀ m ∈ moves, cellAt b m = EMPTY) →
      ∀ g bm α β, (minLoop useAB rec moves b g bm α β).2 = b := by
  intro moves
  induction moves with
  | nil => intro b hmv g bm α β; rfl
  | cons m rest ih =>
    intro b hmv g bm α β
    have hm : cellAt b m = EMPTY := hmv m (by simp)
    have hrest : ∀ k ∈ rest, cellAt b k = EMPTY :=
      fun k hk => hmv k (by simp [hk])
    simp only [minLoop]
    rw [hrec, set_restore b m HUMAN hm]
    cases useAB
    · simp only [Bool.false_eq_true, if_false]
      exact ih b hrest _ _ _ _
    · simp only [if_true]
      split <;> split <;> first
        | rfl
        | exact ih b hrest _ _ _ _

theorem minimax_restores (useAB : Bool) :
    ∀ (f : Nat) (b : List Cell) (mx : Bool) (a2 b2 : XVal),
      (minimax useAB f b mx a2 b2).2 = b := by
  intro f
  induction f with
  | zero =>
    intro b mx a2 b2
    unfold minimax
    split <;> rfl
  | succ f ih =>
    intro b mx a2 b2
    unfold minimax
    split
    · rfl
    · split
      · exact maxLoop_restore useAB _ (fun b3 a3 β3 => ih b3 false a3 β3)
          (move_order b) b (fun m hm => (move_order_mem hm).1) _ _ _ _
      · exact minLoop_restore useAB _ (fun b3 a3 β3 => ih b3 true a3 β3)
          (move_order b) b (fun m hm => (move_order_mem hm).1) _ _ _ _

/-! Characterisations of `available_moves`. -/

theorem avail_from (l : List Cell) : ∀ (n : Nat),
    (l.enumFrom n).filterMap (fun iv => if iv.2 == EMPTY then some iv.1 else none)
    = ((List.range l.length).filter (fun i => cellAt l i == EMPTY)).map (fun i => i + n) := by
  induction l with
  | nil => intro n; rfl
  | cons c t ih =>
    intro n
    rw [List.enumFrom_cons, List.filterMap_cons]
    have hshift : ∀ i : Nat, cellAt (c :: t) (i + 1) = cellAt t i := by
      intro i; rfl
    have hrange : List.range (c :: t).length =
        0 :: (List.range t.length).map Nat.succ := by
      simpa using List.range_succ_eq_map t.length
    rw [hrange]
    rw [List.filter_cons]
    have hfm : ((List.range t.length).map Nat.succ).filter
          (fun i => cellAt (c :: t) i == EMPTY)
        = ((List.range t.length).filter (fun i => cellAt t i == EMPTY)).map Nat.succ := by
      rw [List.filter_map]
      congr 1
    have hc0 : cellAt (c :: t) 0 = c := rfl
    by_cases hc : (c == EMPTY) = true
    · simp only [hc0, hc, if_true]
      rw [ih (n + 1)]
      simp only [List.map_cons, Nat.zero_add, hfm, List.map_map]
      congr 1
      apply List.map_congr_left
      intro i _
      simp only [Function.comp, Nat.succ_eq_add_one]
      omega
    · simp only [hc0, hc, if_false, Bool.false_eq_true]
      rw [ih (n + 1)]
      simp only [hfm, List.map_map]
      apply List.map_congr_left
      intro i _
      simp only [Function.comp, Nat.succ_eq_add_one]
      omega

theorem avail_eq (board : List Cell) :
    available_moves board
      = (List.range board.length).filter (fun i => cellAt board i == EMPTY) := by
  have h := avail_from board 0
  unfold available_moves
  rw [show board.enum = board.enumFrom 0 from rfl, h]
  simp

theorem avail_mem {board : List Cell} {i : Nat} :
    i ∈ available_moves board ↔ i < board.length ∧ cellAt board i = EMPTY := by
  rw [avail_eq]
  rw [List.mem_filter, List.mem_range]
  simp

theorem filter_length_flip {p q : Nat → Bool} {m : Nat} :
    ∀ (ns : List Nat), ns.Nodup → m ∈ ns →
    (∀ i ∈ ns, i ≠ m → q i = p i) → p m = true → q m = false →
    (ns.filter q).length + 1 = (ns.filter p).length := by
  intro ns
  induction ns with
  | nil => intro _ hm; simp at hm
  | cons a t ih =>
    intro hnd hm hpq hp hq
    have hnd2 : t.Nodup := (List.nodup_cons.mp hnd).2
    by_cases ham : a = m
    · subst ham
      have hat : a ∉ t := (List.nodup_cons.mp hnd).1
      have hft : t.filter q = t.filter p := by
        apply List.filter_congr
        intro i hi
        exact hpq i (by simp [hi]) (fun hh => hat (hh ▸ hi))
      rw [List.filter_cons, List.filter_cons, hp, hq, hft]
      simp
    · have hmt : m ∈ t := by
        rcases List.mem_cons.mp hm with h | h
        · exact absurd h.symm ham
        · exact h
      have hq2 : ∀ i ∈ t, i ≠ m → q i = p i :=
        fun i hi => hpq i (by simp [hi])
      have hqa : q a = p a := hpq a (by simp) ham
      rw [List.filter_cons, List.filter_cons, hqa]
      by_cases hpa : p a = true
      · simp only [hpa, if_true, List.length_cons]
        have := ih hnd2 hmt hq2 hp hq
        omega
      · simp only [Bool.not_eq_true] at hpa
        simp only [hpa, Bool.false_eq_true, if_false]
        exact ih hnd2 hmt hq2 hp hq

theorem emptyCount_set {board : List Cell} {m : Nat} {v : Cell}
    (hcell : cellAt board m = EMPTY) (hm : m < board.length)
    (hv : (v == EMPTY) = false) :
    emptyCount (board.set m v) + 1 = emptyCount board := by
  unfold emptyCount
  rw [avail_eq, avail_eq, length_set_cell]
  apply filter_length_flip (List.range board.length) (List.nodup_range _)
    (List.mem_range.mpr hm)
  · intro i _ him
    rw [cellAt_set_ne board m i v him]
  · simp [hcell]
  · rw [cellAt_set_self board m v hm]
    exact hv

/-! Terminal-position facts. -/

theorem is_terminal_false_iff (b : List Cell) :
    is_terminal b = false ↔ winner b = none ∧ available_moves b ≠ [] := by
  unfold is_terminal
  rw [Bool.or_eq_false_iff]
  constructor
  · intro ⟨h1, h2⟩
    refine ⟨Option.not_isSome_iff_eq_none.mp (by simp [h1]), ?_⟩
    simpa [List.isEmpty_iff] using h2
  · intro ⟨h1, h2⟩
    constructor
    · simp [h1]
    · simpa [List.isEmpty_iff]

theorem perm_move_order_avail {b : List Cell} (hlen : b.length = 9) :
    (move_order b).Perm (available_moves b) := by
  rw [move_order_eq_filter, avail_eq, hlen]
  apply List.Perm.filter
  decide

theorem move_order_ne_nil {b : List Cell} (hlen : b.length = 9)
    (hterm : is_terminal b = false) : move_order b ≠ [] := by
  have hav : available_moves b ≠ [] := ((is_terminal_false_iff b).mp hterm).2
  intro hcon
  have hp := perm_move_order_avail hlen
  rw [hcon] at hp
  exact hav (List.Perm.nil_eq hp).symm

/-! Claim theorems C3, C6, C10. -/

/-- C3: for every board, fuel, maximizing flag, and alpha-beta window,
a `minimax` call returns the board object bit-for-bit identical to its
state before the call, on every path including early alpha-beta cuts
(the board component of the result is the threaded final state of the
mutated board object; `best_ai_move` only runs such a call). -/
theorem claim_C3_board_restored (useAB : Bool) (fuel : Nat)
    (board : List Cell) (maximizing : Bool) (alpha beta : XVal) :
    (minimax useAB fuel board maximizing alpha beta).2 = board :=
  minimax_restores useAB fuel board maximizing alpha beta

/-- C6: for every board, `move_order` returns exactly the empty cells in
the fixed priority: center 4 first, then the corners in the order
0, 2, 6, 8, then the edges in the order 1, 3, 5, 7 — one filter of the
fixed priority list, hence deterministic and dependent only on the board
contents. -/
theorem claim_C6_move_order_spec (board : List Cell) :
    move_order board
      = [4, 0, 2, 6, 8, 1, 3, 5, 7].filter (fun i => cellAt board i == EMPTY) :=
  move_order_eq_filter board

/-- C10: for every 9-cell board, `move_order` is a permutation of
`available_moves`: it lists exactly the empty indices, each exactly
once. -/
theorem claim_C10_move_order_perm (board : List Cell)
    (hlen : board.length = 9) :
    (move_order board).Perm (available_moves board) :=
  perm_move_order_avail hlen

/-- Witness for C10 at the empty board. -/
theorem claim_C10_witness :
    emptyBoard.length = 9 ∧ (move_order emptyBoard).Perm (available_moves emptyBoard) :=
  ⟨rfl, claim_C10_move_order_perm emptyBoard rfl⟩

/-! Claim C7: first-match semantics of `winner`. -/

theorem lineMark_some_iff {board : List Cell} {t : Nat × Nat × Nat} {w : Cell} :
    lineMark board t = some w ↔ occupies board w t := by
  unfold lineMark occupies
  by_cases hcond : ((!(cellAt board t.1 == EMPTY)) &&
      (cellAt board t.1 == cellAt board t.2.1) &&
      (cellAt board t.2.1 == cellAt board t.2.2)) = true
  · rw [if_pos hcond]
    simp only [Bool.and_eq_true, Bool.not_eq_true', beq_iff_eq, beq_eq_false_iff_ne] at hcond
    obtain ⟨⟨h1, h2⟩, h3⟩ := hcond
    constructor
    · intro hw
      have hw2 : cellAt board t.1 = w := by injection hw
      subst hw2
      exact ⟨h1, rfl, h2.symm, (h2.trans h3).symm⟩
    · intro ⟨_, hw2, _, _⟩
      rw [hw2]
  · rw [if_neg hcond]
    simp only [Bool.and_eq_true, Bool.not_eq_true', beq_iff_eq, beq_eq_false_iff_ne,
      not_and] at hcond
    constructor
    · intro hcon; exact Option.noConfusion hcon
    · intro ⟨hw1, hw2, hw3, hw4⟩
      have hx : cellAt board t.1 ≠ EMPTY := by rw [hw2]; exact hw1
      have hxy : cellAt board t.1 = cellAt board t.2.1 := by rw [hw2, hw3]
      have hyz : cellAt board t.2.1 = cellAt board t.2.2 := by rw [hw3, hw4]
      exact absurd hyz (hcond ⟨hx, hxy⟩)

theorem lineMark_none_iff {board : List Cell} {t : Nat × Nat × Nat} :
    lineMark board t = none ↔ ∀ w, ¬ occupies board w t := by
  constructor
  · intro hn w hocc
    rw [← lineMark_some_iff] at hocc
    rw [hn] at hocc
    exact Option.noConfusion hocc
  · intro h
    cases hl : lineMark board t with
    | none => rfl
    | some w => exact absurd (lineMark_some_iff.mp hl) (h w)

/-- C7: `winner` is total on every board (also boards unreachable in
legal play, where several lines may be complete): it returns `none`
exactly when no line is occupied, and returns `some w` exactly when some
line of `WIN_LINES` — taken in the fixed order 3 rows, 3 columns, 2
diagonals — is occupied by `w` and every line listed before it is
occupied by no mark. -/
theorem claim_C7_winner_first_line (board : List Cell) :
    (winner board = none ↔ ∀ t ∈ WIN_LINES, ∀ w, ¬ occupies board w t) ∧
    (∀ w, winner board = some w ↔
      ∃ pre t post, WIN_LINES = pre ++ t :: post ∧ occupies board w t ∧
        ∀ t2 ∈ pre, ∀ w2, ¬ occupies board w2 t2) := by
  constructor
  · unfold winner
    rw [List.findSome?_eq_none_iff]
    constructor
    · intro h t ht
      exact lineMark_none_iff.mp (h t ht)
    · intro h t ht
      exact lineMark_none_iff.mpr (h t ht)
  · intro w
    unfold winner
    rw [List.findSome?_eq_some_iff]
    constructor
    · intro ⟨pre, t, post, hsplit, hsome, hpre⟩
      exact ⟨pre, t, post, hsplit, lineMark_some_iff.mp hsome,
        fun t2 ht2 => lineMark_none_iff.mp (hpre t2 ht2)⟩
    · intro ⟨pre, t, post, hsplit, hocc, hpre⟩
      exact ⟨pre, t, post, hsplit, lineMark_some_iff.mpr hocc,
        fun t2 ht2 => lineMark_none_iff.mpr (hpre t2 ht2)⟩

/-! Claim C8: behaviour of `minimax`, `best_ai_move` and `score` on
contract-violating inputs. -/

theorem minimax_terminal (useAB : Bool) (fuel : Nat) (board : List Cell)
    (mx : Bool) (a2 b2 : XVal) (h : is_terminal board = true) :
    minimax useAB fuel board mx a2 b2
      = ((XVal.fin (score board), none), board) := by
  cases fuel <;> simp [minimax, h]

theorem score_no_winner {board : List Cell} (h : winner board = none) :
    score board = 0 := by
  simp [score, h]

/-- C8 counterexample: on the already-terminal board X X X / O O . / . . .
(X has won the top row), `minimax` returns the plain value
`(score, None)` and `best_ai_move` returns `None`; `score` on the
non-terminal empty board returns plain 0.  No assertion and no error of
any kind interrupts these calls, so the fail-fast behaviour asserted by
the claim does not exist in the code. -/
theorem claim_C8_counterexample :
    minimax USE_ALPHA_BETA 9
        [Cell.X, Cell.X, Cell.X, Cell.O, Cell.O, Cell.E, Cell.E, Cell.E, Cell.E]
        true XVal.negInf XVal.posInf
      = ((XVal.fin (-1), none),
         [Cell.X, Cell.X, Cell.X, Cell.O, Cell.O, Cell.E, Cell.E, Cell.E, Cell.E]) ∧
    best_ai_move
        [Cell.X, Cell.X, Cell.X, Cell.O, Cell.O, Cell.E, Cell.E, Cell.E, Cell.E]
      = none ∧
    score emptyBoard = 0 := by
  refine ⟨by decide, by decide, by decide⟩

/-- C8 amended: calling `minimax` (hence `best_ai_move`) on an
already-terminal board does not fail fast; it silently returns
`(score board, None)` (and `best_ai_move` returns `None`); likewise
`score` on a board without a winner silently returns 0. -/
theorem claim_C8_amended (board : List Cell) (h : is_terminal board = true) :
    (∀ useAB fuel mx a2 b2, minimax useAB fuel board mx a2 b2
        = ((XVal.fin (score board), none), board)) ∧
    best_ai_move board = none ∧
    (∀ b2 : List Cell, winner b2 = none → score b2 = 0) := by
  refine ⟨fun useAB fuel mx a2 b2 => minimax_terminal useAB fuel board mx a2 b2 h,
    ?_, fun b2 hw => score_no_winner hw⟩
  unfold best_ai_move
  rw [minimax_terminal USE_ALPHA_BETA 9 board true XVal.negInf XVal.posInf h]

/-- Witness for the amended C8 at a concrete terminal board. -/
theorem claim_C8_witness :
    is_terminal [Cell.X, Cell.X, Cell.X, Cell.O, Cell.O, Cell.E, Cell.E, Cell.E,
        Cell.E] = true ∧
    minimax true 3
        [Cell.X, Cell.X, Cell.X, Cell.O, Cell.O, Cell.E, Cell.E, Cell.E, Cell.E]
        false XVal.negInf XVal.posInf
      = ((XVal.fin (score [Cell.X, Cell.X, Cell.X, Cell.O, Cell.O, Cell.E,
          Cell.E, Cell.E, Cell.E]), none),
         [Cell.X, Cell.X, Cell.X, Cell.O, Cell.O, Cell.E, Cell.E, Cell.E, Cell.E]) :=
  ⟨by decide,
   (claim_C8_amended _ (by decide)).1 true 3 false XVal.negInf XVal.posInf⟩

/-! Claim C9: illegal moves are rejected. -/

theorem parse_move_lt9 (s : String) (m : Nat) (h : parse_move s = some m) :
    m < 9 := by
  simp only [parse_move] at h
  split at h
  · exact Option.noConfusion h
  · split at h
    · rename_i hcond
      simp only [Bool.and_eq_true, decide_eq_true_eq] at hcond
      injection h with h2
      omega
    · exact Option.noConfusion h

theorem applyMove_rejects (board : List Cell) (mark : Cell) (index : Int)
    (h : ¬(0 ≤ index ∧ index < 9) ∨ cellAt board index.toNat ≠ EMPTY) :
    applyMove board index mark = (board, some IllegalMoveError.illegalMove) := by
  unfold applyMove
  by_cases hin : 0 ≤ index ∧ index < 9
  · rw [if_pos hin]
    rcases h with h | h
    · exact absurd hin h
    · rw [if_neg (by simpa using h)]
  · rw [if_neg hin]

theorem human_step_none_iff (board : List Cell) (s : String) :
    human_step board s = none ↔
      parse_move s = none ∨
        ∃ m, parse_move s = some m ∧ cellAt board m ≠ EMPTY := by
  unfold human_step
  cases hp : parse_move s with
  | none => simp
  | some m =>
    dsimp only
    by_cases hc : (cellAt board m == EMPTY) = true
    · rw [if_pos hc]
      simp only [beq_iff_eq] at hc
      simp [hc]
    · rw [if_neg hc]
      simp only [Bool.not_eq_true, beq_eq_false_iff_ne] at hc
      simp [hc]

theorem human_step_some (board : List Cell) (s : String) (b2 : List Cell)
    (h : human_step board s = some b2) :
    ∃ m, m < 9 ∧ parse_move s = some m ∧ cellAt board m = EMPTY ∧
      b2 = board.set m HUMAN := by
  unfold human_step at h
  cases hp : parse_move s with
  | none => rw [hp] at h; exact Option.noConfusion h
  | some m =>
    rw [hp] at h
    dsimp only at h
    by_cases hc : (cellAt board m == EMPTY) = true
    · rw [if_pos hc] at h
      injection h with h2
      exact ⟨m, parse_move_lt9 s m hp, rfl, by simpa using hc, h2.symm⟩
    · rw [if_neg hc] at h
      exact Option.noConfusion h

/-- C9: a move at an out-of-range index (9, -1, or any index outside
[0,9)) or at an occupied cell is rejected with `IllegalMoveError` and
the board is returned unchanged — the mutation never partially applies;
at the human-facing boundary, `parse_move` can only produce indices
below 9, and a rejected input leaves the turn loop re-prompting on the
unchanged board (`human_step` only builds a new board for an in-range
empty cell). -/
theorem claim_C9_illegal_moves_rejected :
    (∀ (board : List Cell) (mark : Cell),
      applyMove board 9 mark = (board, some IllegalMoveError.illegalMove) ∧
      applyMove board (-1) mark = (board, some IllegalMoveError.illegalMove)) ∧
    (∀ (board : List Cell) (mark : Cell) (index : Int),
      (¬(0 ≤ index ∧ index < 9) ∨ cellAt board index.toNat ≠ EMPTY) →
      applyMove board index mark = (board, some IllegalMoveError.illegalMove)) ∧
    (∀ (s : String) (m : Nat), parse_move s = some m → m < 9) ∧
    (∀ (board : List Cell) (s : String),
      human_step board s = none ↔
        parse_move s = none ∨
          ∃ m, parse_move s = some m ∧ cellAt board m ≠ EMPTY) ∧
    (∀ (board : List Cell) (s : String) (b2 : List Cell),
      human_step board s = some b2 →
      ∃ m, m < 9 ∧ parse_move s = some m ∧ cellAt board m = EMPTY ∧
        b2 = board.set m HUMAN) :=
  ⟨fun board mark =>
     ⟨applyMove_rejects board mark 9 (Or.inl (by omega)),
      applyMove_rejects board mark (-1) (Or.inl (by omega))⟩,
   fun board mark index h => applyMove_rejects board mark index h,
   parse_move_lt9,
   human_step_none_iff,
   human_step_some⟩

/-- Witness for C9 at concrete inputs: index 9 and index -1 on the empty
board, an occupied cell on a one-mark board, and the parsed input
string 2 3. -/
theorem claim_C9_witness :
    applyMove emptyBoard 9 Cell.O = (emptyBoard, some IllegalMoveError.illegalMove) ∧
    applyMove emptyBoard (-1) Cell.O = (emptyBoard, some IllegalMoveError.illegalMove) ∧
    applyMove [Cell.X, Cell.E, Cell.E, Cell.E, Cell.E, Cell.E, Cell.E, Cell.E,
        Cell.E] 0 Cell.O
      = ([Cell.X, Cell.E, Cell.E, Cell.E, Cell.E, Cell.E, Cell.E, Cell.E, Cell.E],
         some IllegalMoveError.illegalMove) :=
  ⟨(claim_C9_illegal_moves_rejected.1 emptyBoard Cell.O).1,
   (claim_C9_illegal_moves_rejected.1 emptyBoard Cell.O).2,
   claim_C9_illegal_moves_rejected.2.1
     [Cell.X, Cell.E, Cell.E, Cell.E, Cell.E, Cell.E, Cell.E, Cell.E, Cell.E]
     Cell.O 0 (Or.inr (by decide))⟩

/-! Claim C5: the concrete fixture board. -/

/-- C5: on the board X O X / X O . / . . O with the engine (O) to move
as maximizer, `best_ai_move` — i.e. the full minimax definition with the
fixed move ordering and first-seen tie-break — returns index 7. -/
theorem claim_C5_fixture_board :
    best_ai_move
        [Cell.X, Cell.O, Cell.X, Cell.X, Cell.O, Cell.E, Cell.E, Cell.E, Cell.O]
      = some 7 := by
  decide

/-! Alpha-beta versus plain minimax: node and loop characterisations. -/

theorem minimax_zero (useAB : Bool) (b : List Cell) (mx : Bool) (a2 b2 : XVal)
    (h : is_terminal b = false) :
    minimax useAB 0 b mx a2 b2 = ((XVal.fin 0, none), b) := by
  simp [minimax, h]

theorem minimax_succ_max (useAB : Bool) (f : Nat) (b : List Cell) (a2 b2 : XVal)
    (h : is_terminal b = false) :
    minimax useAB (Nat.succ f) b true a2 b2
      = maxLoop useAB (fun b3 a3 β3 => minimax useAB f b3 false a3 β3)
          (move_order b) b XVal.negInf none a2 b2 := by
  simp [minimax, h]

theorem minimax_succ_min (useAB : Bool) (f : Nat) (b : List Cell) (a2 b2 : XVal)
    (h : is_terminal b = false) :
    minimax useAB (Nat.succ f) b false a2 b2
      = minLoop useAB (fun b3 a3 β3 => minimax useAB f b3 true a3 β3)
          (move_order b) b XVal.posInf none a2 b2 := by
  simp [minimax, h]

theorem umaxLoop_eq (f : Nat) (b : List Cell) :
    ∀ (moves : List Nat), (∀ m ∈ moves, cellAt b m = EMPTY) →
    ∀ g bm,
      (maxLoop false (fun b3 a3 β3 => minimax false f b3 false a3 β3)
          moves b g bm XVal.negInf XVal.posInf).1.1
        = uMax f b moves g := by
  intro moves
  induction moves with
  | nil => intro _ g bm; rfl
  | cons m rest ih =>
    intro hmv g bm
    have hm : cellAt b m = EMPTY := hmv m (by simp)
    have hrest : ∀ k ∈ rest, cellAt b k = EMPTY :=
      fun k hk => hmv k (by simp [hk])
    simp only [maxLoop, Bool.false_eq_true, if_false]
    rw [minimax_restores, set_restore b m AI hm]
    rw [ih hrest]
    rfl

theorem uminLoop_eq (f : Nat) (b : List Cell) :
    ∀ (moves : List Nat), (∀ m ∈ moves, cellAt b m = EMPTY) →
    ∀ g bm,
      (minLoop false (fun b3 a3 β3 => minimax false f b3 true a3 β3)
          moves b g bm XVal.negInf XVal.posInf).1.1
        = uMin f b moves g := by
  intro moves
  induction moves with
  | nil => intro _ g bm; rfl
  | cons m rest ih =>
    intro hmv g bm
    have hm : cellAt b m = EMPTY := hmv m (by simp)
    have hrest : ∀ k ∈ rest, cellAt b k = EMPTY :=
      fun k hk => hmv k (by simp [hk])
    simp only [minLoop, Bool.false_eq_true, if_false]
    rw [minimax_restores, set_restore b m HUMAN hm]
    rw [ih hrest]
    rfl

theorem mm_max_eq (f : Nat) (b : List Cell) (h : is_terminal b = false) :
    mmVal (Nat.succ f) b true = uMax f b (move_order b) XVal.negInf := by
  unfold mmVal searchVal
  rw [minimax_succ_max false f b XVal.negInf XVal.posInf h]
  exact umaxLoop_eq f b (move_order b) (fun m hm => (move_order_mem hm).1)
    XVal.negInf none

theorem mm_min_eq (f : Nat) (b : List Cell) (h : is_terminal b = false) :
    mmVal (Nat.succ f) b false = uMin f b (move_order b) XVal.posInf := by
  unfold mmVal searchVal
  rw [minimax_succ_min false f b XVal.negInf XVal.posInf h]
  exact uminLoop_eq f b (move_order b) (fun m hm => (move_order_mem hm).1)
    XVal.posInf none

/-! Fold bounds for the unpruned loop semantics. -/

theorem uMax_ge (f : Nat) (b : List Cell) :
    ∀ (moves : List Nat) (g : XVal), XVal.le g (uMax f b moves g) = true := by
  intro moves
  induction moves with
  | nil => intro g; exact xle_refl g
  | cons m rest ih =>
    intro g
    unfold uMax
    by_cases hlt : XVal.lt g (chValMax f b m) = true
    · rw [if_pos hlt]
      exact xle_trans (xle_of_lt hlt) (ih (chValMax f b m))
    · rw [if_neg hlt]
      exact ih g

theorem uMin_le (f : Nat) (b : List Cell) :
    ∀ (moves : List Nat) (g : XVal), XVal.le (uMin f b moves g) g = true := by
  intro moves
  induction moves with
  | nil => intro g; exact xle_refl g
  | cons m rest ih =>
    intro g
    unfold uMin
    by_cases hlt : XVal.lt (chValMin f b m) g = true
    · rw [if_pos hlt]
      exact xle_trans (ih (chValMin f b m)) (xle_of_lt hlt)
    · rw [if_neg hlt]
      exact ih g

theorem le_uMax_of_mem (f : Nat) (b : List Cell) :
    ∀ (moves : List Nat) (g : XVal) (m : Nat), m ∈ moves →
      XVal.le (chValMax f b m) (uMax f b moves g) = true := by
  intro moves
  induction moves with
  | nil => intro g m hm; simp at hm
  | cons m2 rest ih =>
    intro g m hm
    unfold uMax
    rcases List.mem_cons.mp hm with heq | hmem
    · subst heq
      by_cases hlt : XVal.lt g (chValMax f b m) = true
      · rw [if_pos hlt]
        exact uMax_ge f b rest (chValMax f b m)
      · rw [if_neg hlt]
        exact xle_trans (xle_of_not_lt hlt) (uMax_ge f b rest g)
    · by_cases hlt : XVal.lt g (chValMax f b m2) = true
      · rw [if_pos hlt]; exact ih (chValMax f b m2) m hmem
      · rw [if_neg hlt]; exact ih g m hmem

theorem uMin_le_of_mem (f : Nat) (b : List Cell) :
    ∀ (moves : List Nat) (g : XVal) (m : Nat), m ∈ moves →
      XVal.le (uMin f b moves g) (chValMin f b m) = true := by
  intro moves
  induction moves with
  | nil => intro g m hm; simp at hm
  | cons m2 rest ih =>
    intro g m hm
    unfold uMin
    rcases List.mem_cons.mp hm with heq | hmem
    · subst heq
      by_cases hlt : XVal.lt (chValMin f b m) g = true
      · rw [if_pos hlt]
        exact uMin_le f b rest (chValMin f b m)
      · rw [if_neg hlt]
        exact xle_trans (uMin_le f b rest g) (xle_of_not_lt hlt)
    · by_cases hlt : XVal.lt (chValMin f b m2) g = true
      · rw [if_pos hlt]; exact ih (chValMin f b m2) m hmem
      · rw [if_neg hlt]; exact ih g m hmem

/-- Fail-soft trichotomy of the pruned maximizing loop against the
unpruned running maximum: for a loop state with current best `g0`,
running alpha `a1 = max a0 g0` and window still open (`a1 < b0`), the
final loop value `v` satisfies: if `v <= a0` it upper-bounds the true
value, if `b0 <= v` it lower-bounds it, and strictly inside the window
it equals the true value.  `rec` is the child search, assumed to restore
boards and to satisfy the same trichotomy against the unpruned child
value `chValMax`. -/
theorem maxLoop_tri (f : Nat) (b : List Cell) (a0 b0 : XVal)
    (rec : List Cell → XVal → XVal → (XVal × Option Nat) × List Cell)
    (hres : ∀ b2 a2 b3, (rec b2 a2 b3).2 = b2) :
    ∀ (moves : List Nat),
      (∀ m ∈ moves, cellAt b m = EMPTY) →
      (∀ m ∈ moves, ∀ a2 β2, XVal.lt a2 β2 = true →
        (XVal.le ((rec (b.set m AI) a2 β2).1.1) a2 = true →
           XVal.le (chValMax f b m) ((rec (b.set m AI) a2 β2).1.1) = true) ∧
        (XVal.le β2 ((rec (b.set m AI) a2 β2).1.1) = true →
           XVal.le ((rec (b.set m AI) a2 β2).1.1) (chValMax f b m) = true) ∧
        (XVal.lt a2 ((rec (b.set m AI) a2 β2).1.1) = true →
           XVal.lt ((rec (b.set m AI) a2 β2).1.1) β2 = true →
           (rec (b.set m AI) a2 β2).1.1 = chValMax f b m)) →
      ∀ (g0 : XVal) (bm : Option Nat) (M0 a1 : XVal),
        a1 = XVal.max a0 g0 →
        XVal.lt a1 b0 = true →
        XVal.le M0 g0 = true →
        (XVal.lt a0 g0 = true → XVal.le g0 M0 = true) →
        (XVal.le ((maxLoop true rec moves b g0 bm a1 b0).1.1) a0 = true →
           XVal.le (uMax f b moves M0)
             ((maxLoop true rec moves b g0 bm a1 b0).1.1) = true) ∧
        (XVal.le b0 ((maxLoop true rec moves b g0 bm a1 b0).1.1) = true →
           XVal.le ((maxLoop true rec moves b g0 bm a1 b0).1.1)
             (uMax f b moves M0) = true) ∧
        (XVal.lt a0 ((maxLoop true rec moves b g0 bm a1 b0).1.1) = true →
           XVal.lt ((maxLoop true rec moves b g0 bm a1 b0).1.1) b0 = true →
           (maxLoop true rec moves b g0 bm a1 b0).1.1 = uMax f b moves M0) := by
  intro moves
  induction moves with
  | nil =>
    intro _ _ g0 bm M0 a1 ha1 hab hI1 hI2
    refine ⟨fun _ => hI1, fun hbg => ?_, fun h1 _ => ?_⟩
    · have hg0a1 : XVal.le g0 a1 = true := ha1 ▸ xle_max_right a0 g0
      have hcon : XVal.lt a1 a1 = true :=
        xlt_of_lt_of_le hab (xle_trans hbg hg0a1)
      rw [xlt_irrefl] at hcon
      exact Bool.noConfusion hcon
    · exact (xle_antisymm hI1 (hI2 h1)).symm
  | cons m rest ih =>
    intro hmv htri g0 bm M0 a1 ha1 hab hI1 hI2
    have hm : cellAt b m = EMPTY := hmv m (by simp)
    have hrest : ∀ k ∈ rest, cellAt b k = EMPTY :=
      fun k hk => hmv k (by simp [hk])
    have htrest := fun m2 (hk : m2 ∈ rest) =>
      htri m2 (List.mem_cons_of_mem m hk)
    have d := htri m (by simp) a1 b0 hab
    set s := (rec (b.set m AI) a1 b0).1.1 with hs
    set t := chValMax f b m with ht
    -- the true running maximum after this child
    simp only [uMax]
    rw [← ht]
    set M1 := if XVal.lt M0 t = true then t else M0 with hM1
    have hM0M1 : XVal.le M0 M1 = true := by
      by_cases hM : XVal.lt M0 t = true
      · rw [hM1, if_pos hM]; exact xle_of_lt hM
      · rw [hM1, if_neg hM]; exact xle_refl M0
    have htM1 : XVal.lt M0 t = true → M1 = t := fun hM => by rw [hM1, if_pos hM]
    have htM1le : XVal.le t M1 = true := by
      by_cases hM : XVal.lt M0 t = true
      · rw [hM1, if_pos hM]; exact xle_refl t
      · rw [hM1, if_neg hM]; exact xle_of_not_lt hM
    have ha0a1 : XVal.le a0 a1 = true := ha1 ▸ xle_max_left a0 g0
    by_cases hg : XVal.lt g0 s = true
    · -- the child improves the best score: g1 = s, bm1 = some m
      by_cases hcut : XVal.le b0 (XVal.max a1 s) = true
      · -- beta cut: the loop returns s immediately
        have hstep : (maxLoop true rec (m :: rest) b g0 bm a1 b0).1.1 = s := by
          simp only [maxLoop, if_true, hres, set_restore b m AI hm, ← hs, hg,
            if_pos, hcut]
        rw [hstep]
        have hbs : XVal.le b0 s = true := by
          rcases xle_max_iff.mp hcut with hba | hbs
          · exact absurd hba ((xlt_iff a1 b0).mp hab)
          · exact hbs
        refine ⟨fun hsa0 => ?_, fun _ => ?_, fun _ h2 => ?_⟩
        · have hcon : XVal.lt a1 a1 = true :=
            xlt_of_lt_of_le hab (xle_trans hbs (xle_trans hsa0 ha0a1))
          rw [xlt_irrefl] at hcon
          exact Bool.noConfusion hcon
        · exact xle_trans (d.2.1 hbs) (xle_trans htM1le (uMax_ge f b rest M1))
        · have hcon : XVal.lt s s = true := xlt_of_lt_of_le h2 hbs
          rw [xlt_irrefl] at hcon
          exact Bool.noConfusion hcon
      · -- no cut: the loop continues with best s and alpha max a1 s
        have hstep : maxLoop true rec (m :: rest) b g0 bm a1 b0
            = maxLoop true rec rest b s (some m) (XVal.max a1 s) b0 := by
          simp only [maxLoop, if_true, hres, set_restore b m AI hm, ← hs, hg,
            if_pos, hcut, if_neg, Bool.false_eq_true, if_false]
        rw [hstep]
        have hab2 : XVal.lt (XVal.max a1 s) b0 = true := (xlt_iff _ _).mpr hcut
        have ha2 : XVal.max a1 s = XVal.max a0 s := by
          rw [ha1]; exact xmax_absorb (xle_of_lt hg)
        have hsb0 : XVal.lt s b0 = true :=
          xlt_of_le_of_lt (xle_max_right a1 s) hab2
        have hts : XVal.le t s = true := by
          by_cases hsa1 : XVal.le s a1 = true
          · exact d.1 hsa1
          · exact (d.2.2 ((xlt_iff a1 s).mpr hsa1) hsb0) ▸ xle_refl s
        have hI1n : XVal.le M1 s = true := by
          by_cases hM : XVal.lt M0 t = true
          · rw [htM1 hM]; exact hts
          · rw [hM1, if_neg hM]
            exact xle_trans hI1 (xle_of_lt hg)
        have hI2n : XVal.lt a0 s = true → XVal.le s M1 = true := by
          intro ha0s
          have hsa1 : ¬ XVal.le s a1 = true := by
            intro hcon
            rw [ha1] at hcon
            rcases xle_max_iff.mp hcon with h3 | h3
            · exact ((xlt_iff a0 s).mp ha0s) h3
            · exact ((xlt_iff g0 s).mp hg) h3
          have hst : s = t := d.2.2 ((xlt_iff a1 s).mpr hsa1) hsb0
          rw [hst]
          exact htM1le
        exact ih hrest htrest s (some m) M1 (XVal.max a1 s) ha2 hab2 hI1n hI2n
    · -- the child does not improve the best score: g1 = g0, bm1 = bm
      have hsg0 : XVal.le s g0 = true := xle_of_not_lt hg
      by_cases hcut : XVal.le b0 (XVal.max a1 g0) = true
      · -- a beta cut here is impossible, since g0 <= a1 < b0
        exfalso
        have hg0a1 : XVal.le g0 a1 = true := ha1 ▸ xle_max_right a0 g0
        have hmaxa1 : XVal.le (XVal.max a1 g0) a1 = true :=
          xmax_le_iff.mpr ⟨xle_refl a1, hg0a1⟩
        have hcon : XVal.lt a1 a1 = true :=
          xlt_of_lt_of_le hab (xle_trans hcut hmaxa1)
        rw [xlt_irrefl] at hcon
        exact Bool.noConfusion hcon
      · have hstep : maxLoop true rec (m :: rest) b g0 bm a1 b0
            = maxLoop true rec rest b g0 bm (XVal.max a1 g0) b0 := by
          simp only [maxLoop, if_true, hres, set_restore b m AI hm, ← hs, hg,
            if_neg, Bool.false_eq_true, if_false, hcut]
        rw [hstep]
        have hab2 : XVal.lt (XVal.max a1 g0) b0 = true := (xlt_iff _ _).mpr hcut
        have ha2 : XVal.max a1 g0 = XVal.max a0 g0 := by
          rw [ha1]; exact xmax_absorb (xle_refl g0)
        have hI1n : XVal.le M1 g0 = true := by
          by_cases hM : XVal.lt M0 t = true
          · rw [htM1 hM]
            have hsa1 : XVal.le s a1 = true := by
              rw [ha1]
              exact xle_trans hsg0 (xle_max_right a0 g0)
            exact xle_trans (d.1 hsa1) hsg0
          · rw [hM1, if_neg hM]; exact hI1
        have hI2n : XVal.lt a0 g0 = true → XVal.le g0 M1 = true :=
          fun h => xle_trans (hI2 h) hM0M1
        exact ih hrest htrest g0 bm M1 (XVal.max a1 g0) ha2 hab2 hI1n hI2n

/-- Dual fail-soft trichotomy for the pruned minimizing loop against the
unpruned running minimum, with running beta `b1 = min b0 g0`. -/
theorem minLoop_tri (f : Nat) (b : List Cell) (a0 b0 : XVal)
    (rec : List Cell → XVal → XVal → (XVal × Option Nat) × List Cell)
    (hres : ∀ b2 a2 b3, (rec b2 a2 b3).2 = b2) :
    ∀ (moves : List Nat),
      (∀ m ∈ moves, cellAt b m = EMPTY) →
      (∀ m ∈ moves, ∀ a2 β2, XVal.lt a2 β2 = true →
        (XVal.le ((rec (b.set m HUMAN) a2 β2).1.1) a2 = true →
           XVal.le (chValMin f b m) ((rec (b.set m HUMAN) a2 β2).1.1) = true) ∧
        (XVal.le β2 ((rec (b.set m HUMAN) a2 β2).1.1) = true →
           XVal.le ((rec (b.set m HUMAN) a2 β2).1.1) (chValMin f b m) = true) ∧
        (XVal.lt a2 ((rec (b.set m HUMAN) a2 β2).1.1) = true →
           XVal.lt ((rec (b.set m HUMAN) a2 β2).1.1) β2 = true →
           (rec (b.set m HUMAN) a2 β2).1.1 = chValMin f b m)) →
      ∀ (g0 : XVal) (bm : Option Nat) (M0 b1 : XVal),
        b1 = XVal.min b0 g0 →
        XVal.lt a0 b1 = true →
        XVal.le g0 M0 = true →
        (XVal.lt g0 b0 = true → XVal.le M0 g0 = true) →
        (XVal.le ((minLoop true rec moves b g0 bm a0 b1).1.1) a0 = true →
           XVal.le (uMin f b moves M0)
             ((minLoop true rec moves b g0 bm a0 b1).1.1) = true) ∧
        (XVal.le b0 ((minLoop true rec moves b g0 bm a0 b1).1.1) = true →
           XVal.le ((minLoop true rec moves b g0 bm a0 b1).1.1)
             (uMin f b moves M0) = true) ∧
        (XVal.lt a0 ((minLoop true rec moves b g0 bm a0 b1).1.1) = true →
           XVal.lt ((minLoop true rec moves b g0 bm a0 b1).1.1) b0 = true →
           (minLoop true rec moves b g0 bm a0 b1).1.1 = uMin f b moves M0) := by
  intro moves
  induction moves with
  | nil =>
    intro _ _ g0 bm M0 b1 hb1 hab hI1 hI2
    have hb1b0 : XVal.le b1 b0 = true := hb1 ▸ xmin_le_left b0 g0
    refine ⟨fun hga0 => ?_, fun _ => hI1, fun _ h2 => ?_⟩
    · exact hI2 (xlt_of_lt_of_le (xlt_of_le_of_lt hga0 hab) hb1b0)
    · exact xle_antisymm hI1 (hI2 h2)
  | cons m rest ih =>
    intro hmv htri g0 bm M0 b1 hb1 hab hI1 hI2
    have hm : cellAt b m = EMPTY := hmv m (by simp)
    have hrest : ∀ k ∈ rest, cellAt b k = EMPTY :=
      fun k hk => hmv k (by simp [hk])
    have htrest := fun m2 (hk : m2 ∈ rest) =>
      htri m2 (List.mem_cons_of_mem m hk)
    have d := htri m (by simp) a0 b1 hab
    set s := (rec (b.set m HUMAN) a0 b1).1.1 with hs
    set t := chValMin f b m with ht
    simp only [uMin]
    rw [← ht]
    set M1 := if XVal.lt t M0 = true then t else M0 with hM1
    have hM1M0 : XVal.le M1 M0 = true := by
      by_cases hM : XVal.lt t M0 = true
      · rw [hM1, if_pos hM]; exact xle_of_lt hM
      · rw [hM1, if_neg hM]; exact xle_refl M0
    have htM1 : XVal.lt t M0 = true → M1 = t := fun hM => by rw [hM1, if_pos hM]
    have hM1t : XVal.le M1 t = true := by
      by_cases hM : XVal.lt t M0 = true
      · rw [hM1, if_pos hM]; exact xle_refl t
      · rw [hM1, if_neg hM]; exact xle_of_not_lt hM
    have hb1b0 : XVal.le b1 b0 = true := hb1 ▸ xmin_le_left b0 g0
    by_cases hg : XVal.lt s g0 = true
    · -- the child lowers the best score: g1 = s, bm1 = some m
      by_cases hcut : XVal.le (XVal.min b1 s) a0 = true
      · have hstep : (minLoop true rec (m :: rest) b g0 bm a0 b1).1.1 = s := by
          simp only [minLoop, if_true, hres, set_restore b m HUMAN hm, ← hs, hg,
            if_pos, hcut]
        rw [hstep]
        have hsa0 : XVal.le s a0 = true := by
          rcases xmin_le_iff.mp hcut with hba | hsa
          · exact absurd hba ((xlt_iff a0 b1).mp hab)
          · exact hsa
        refine ⟨fun _ => ?_, fun hb0s => ?_, fun h1 _ => ?_⟩
        · exact xle_trans (uMin_le f b rest M1) (xle_trans hM1t (d.1 hsa0))
        · have hcon : XVal.lt b1 b1 = true :=
            xlt_of_le_of_lt (xle_trans hb1b0 (xle_trans hb0s hsa0)) hab
          rw [xlt_irrefl] at hcon
          exact Bool.noConfusion hcon
        · have hcon : XVal.lt s s = true := xlt_of_le_of_lt hsa0 h1
          rw [xlt_irrefl] at hcon
          exact Bool.noConfusion hcon
      · have hstep : minLoop true rec (m :: rest) b g0 bm a0 b1
            = minLoop true rec rest b s (some m) a0 (XVal.min b1 s) := by
          simp only [minLoop, if_true, hres, set_restore b m HUMAN hm, ← hs, hg,
            if_pos, hcut, if_neg, Bool.false_eq_true, if_false]
        rw [hstep]
        have hab2 : XVal.lt a0 (XVal.min b1 s) = true := (xlt_iff _ _).mpr hcut
        have hb2 : XVal.min b1 s = XVal.min b0 s := by
          rw [hb1]; exact xmin_absorb (xle_of_lt hg)
        have ha0s : XVal.lt a0 s = true :=
          xlt_of_lt_of_le hab2 (xmin_le_right b1 s)
        have hsM0 : XVal.le s M0 = true := xle_trans (xle_of_lt hg) hI1
        have hst : XVal.le s t = true := by
          by_cases hsb1 : XVal.le b1 s = true
          · exact d.2.1 hsb1
          · exact (d.2.2 ha0s ((xlt_iff s b1).mpr hsb1)) ▸ xle_refl s
        have hI1n : XVal.le s M1 = true := by
          by_cases hM : XVal.lt t M0 = true
          · rw [htM1 hM]; exact hst
          · rw [hM1, if_neg hM]; exact hsM0
        have hI2n : XVal.lt s b0 = true → XVal.le M1 s = true := by
          intro hsb0
          have hb1s : ¬ XVal.le b1 s = true := by
            intro hcon
            rw [hb1] at hcon
            rcases xmin_le_iff.mp hcon with h3 | h3
            · exact ((xlt_iff s b0).mp hsb0) h3
            · exact ((xlt_iff s g0).mp hg) h3
          have hseq : s = t := d.2.2 ha0s ((xlt_iff s b1).mpr hb1s)
          rw [hseq]
          exact hM1t
        exact ih hrest htrest s (some m) M1 (XVal.min b1 s) hb2 hab2 hI1n hI2n
    · -- the child does not lower the best score: g1 = g0, bm1 = bm
      have hg0s : XVal.le g0 s = true := xle_of_not_lt hg
      by_cases hcut : XVal.le (XVal.min b1 g0) a0 = true
      · exfalso
        have hb1g0 : XVal.le b1 g0 = true := hb1 ▸ xmin_le_right b0 g0
        have hming0 : XVal.le b1 (XVal.min b1 g0) = true :=
          xle_min_iff.mpr ⟨xle_refl b1, hb1g0⟩
        have hcon : XVal.lt b1 b1 = true :=
          xlt_of_le_of_lt (xle_trans hming0 hcut) hab
        rw [xlt_irrefl] at hcon
        exact Bool.noConfusion hcon
      · have hstep : minLoop true rec (m :: rest) b g0 bm a0 b1
            = minLoop true rec rest b g0 bm a0 (XVal.min b1 g0) := by
          simp only [minLoop, if_true, hres, set_restore b m HUMAN hm, ← hs, hg,
            if_neg, Bool.false_eq_true, if_false, hcut]
        rw [hstep]
        have hab2 : XVal.lt a0 (XVal.min b1 g0) = true := (xlt_iff _ _).mpr hcut
        have hb2 : XVal.min b1 g0 = XVal.min b0 g0 := by
          rw [hb1]; exact xmin_absorb (xle_refl g0)
        have hI1n : XVal.le g0 M1 = true := by
          by_cases hM : XVal.lt t M0 = true
          · rw [htM1 hM]
            have hb1s : XVal.le b1 s = true :=
              xle_trans (hb1 ▸ xmin_le_right b0 g0) hg0s
            exact xle_trans hg0s (d.2.1 hb1s)
          · rw [hM1, if_neg hM]; exact hI1
        have hI2n : XVal.lt g0 b0 = true → XVal.le M1 g0 = true :=
          fun h => xle_trans hM1M0 (hI2 h)
        exact ih hrest htrest g0 bm M1 (XVal.min b1 g0) hb2 hab2 hI1n hI2n

/-- Fail-soft trichotomy of the full pruned search against the unpruned
search, by induction on fuel. -/
theorem minimax_tri : ∀ (f : Nat) (b : List Cell) (mx : Bool) (a2 β2 : XVal),
    XVal.lt a2 β2 = true →
    (XVal.le (searchVal true f b mx a2 β2) a2 = true →
       XVal.le (mmVal f b mx) (searchVal true f b mx a2 β2) = true) ∧
    (XVal.le β2 (searchVal true f b mx a2 β2) = true →
       XVal.le (searchVal true f b mx a2 β2) (mmVal f b mx) = true) ∧
    (XVal.lt a2 (searchVal true f b mx a2 β2) = true →
       XVal.lt (searchVal true f b mx a2 β2) β2 = true →
       searchVal true f b mx a2 β2 = mmVal f b mx) := by
  intro f
  induction f with
  | zero =>
    intro b mx a2 β2 _
    have heq : searchVal true 0 b mx a2 β2 = mmVal 0 b mx := by
      unfold mmVal searchVal
      by_cases hterm : is_terminal b = true
      · rw [minimax_terminal true 0 b mx a2 β2 hterm,
          minimax_terminal false 0 b mx XVal.negInf XVal.posInf hterm]
      · have hterm2 : is_terminal b = false := Bool.eq_false_iff.mpr hterm
        rw [minimax_zero true b mx a2 β2 hterm2,
          minimax_zero false b mx XVal.negInf XVal.posInf hterm2]
    refine ⟨fun _ => ?_, fun _ => ?_, fun _ _ => heq⟩
    · rw [heq]; exact xle_refl _
    · rw [heq]; exact xle_refl _
  | succ f ihf =>
    intro b mx a2 β2 hab
    by_cases hterm : is_terminal b = true
    · have heq : searchVal true (Nat.succ f) b mx a2 β2 = mmVal (Nat.succ f) b mx := by
        unfold mmVal searchVal
        rw [minimax_terminal true (Nat.succ f) b mx a2 β2 hterm,
          minimax_terminal false (Nat.succ f) b mx XVal.negInf XVal.posInf hterm]
      refine ⟨fun _ => ?_, fun _ => ?_, fun _ _ => heq⟩
      · rw [heq]; exact xle_refl _
      · rw [heq]; exact xle_refl _
    · have hterm2 : is_terminal b = false := Bool.eq_false_iff.mpr hterm
      have hmv : ∀ m ∈ move_order b, cellAt b m = EMPTY :=
        fun m hm => (move_order_mem hm).1
      cases mx
      · -- minimizing node
        have hgoal : searchVal true (Nat.succ f) b false a2 β2
            = (minLoop true (fun b3 a3 β3 => minimax true f b3 true a3 β3)
                (move_order b) b XVal.posInf none a2 β2).1.1 := by
          unfold searchVal
          rw [minimax_succ_min true f b a2 β2 hterm2]
        rw [hgoal, mm_min_eq f b hterm2]
        have htri : ∀ m ∈ move_order b, ∀ a3 β3, XVal.lt a3 β3 = true →
            (XVal.le ((minimax true f (b.set m HUMAN) true a3 β3).1.1) a3 = true →
               XVal.le (chValMin f b m)
                 ((minimax true f (b.set m HUMAN) true a3 β3).1.1) = true) ∧
            (XVal.le β3 ((minimax true f (b.set m HUMAN) true a3 β3).1.1) = true →
               XVal.le ((minimax true f (b.set m HUMAN) true a3 β3).1.1)
                 (chValMin f b m) = true) ∧
            (XVal.lt a3 ((minimax true f (b.set m HUMAN) true a3 β3).1.1) = true →
               XVal.lt ((minimax true f (b.set m HUMAN) true a3 β3).1.1) β3 = true →
               (minimax true f (b.set m HUMAN) true a3 β3).1.1 = chValMin f b m) :=
          fun m _ a3 β3 h3 => ihf (b.set m HUMAN) true a3 β3 h3
        refine minLoop_tri f b a2 β2 _
          (fun b3 a3 β3 => minimax_restores true f b3 true a3 β3)
          (move_order b) hmv htri XVal.posInf none XVal.posInf β2 ?_ hab
          (xle_refl XVal.posInf) ?_
        · exact (xmin_eq_left (xle_posInf β2)).symm
        · intro hcon
          have h4 : XVal.le β2 XVal.posInf = true := xle_posInf β2
          rw [xlt_iff] at hcon
          exact absurd h4 hcon
      · -- maximizing node
        have hgoal : searchVal true (Nat.succ f) b true a2 β2
            = (maxLoop true (fun b3 a3 β3 => minimax true f b3 false a3 β3)
                (move_order b) b XVal.negInf none a2 β2).1.1 := by
          unfold searchVal
          rw [minimax_succ_max true f b a2 β2 hterm2]
        rw [hgoal, mm_max_eq f b hterm2]
        have htri : ∀ m ∈ move_order b, ∀ a3 β3, XVal.lt a3 β3 = true →
            (XVal.le ((minimax true f (b.set m AI) false a3 β3).1.1) a3 = true →
               XVal.le (chValMax f b m)
                 ((minimax true f (b.set m AI) false a3 β3).1.1) = true) ∧
            (XVal.le β3 ((minimax true f (b.set m AI) false a3 β3).1.1) = true →
               XVal.le ((minimax true f (b.set m AI) false a3 β3).1.1)
                 (chValMax f b m) = true) ∧
            (XVal.lt a3 ((minimax true f (b.set m AI) false a3 β3).1.1) = true →
               XVal.lt ((minimax true f (b.set m AI) false a3 β3).1.1) β3 = true →
               (minimax true f (b.set m AI) false a3 β3).1.1 = chValMax f b m) :=
          fun m _ a3 β3 h3 => ihf (b.set m AI) false a3 β3 h3
        refine maxLoop_tri f b a2 β2 _
          (fun b3 a3 β3 => minimax_restores true f b3 false a3 β3)
          (move_order b) hmv htri XVal.negInf none XVal.negInf a2 ?_ hab
          (xle_refl XVal.negInf) ?_
        · exact (xmax_eq_left (xnegInf_le a2)).symm
        · intro hcon
          rw [xlt_iff] at hcon
          exact absurd (xnegInf_le a2) hcon

/-- At the full window the fail-soft bounds collapse to equality: the
pruned search value equals the unpruned search value. -/
theorem ab_eq_mm (f : Nat) (b : List Cell) (mx : Bool) :
    searchVal true f b mx XVal.negInf XVal.posInf = mmVal f b mx := by
  have h := minimax_tri f b mx XVal.negInf XVal.posInf (by decide)
  by_cases h1 : XVal.le (searchVal true f b mx XVal.negInf XVal.posInf)
      XVal.negInf = true
  · have hg := (xle_negInf_iff _).mp h1
    have hm := h.1 h1
    rw [hg] at hm ⊢
    exact ((xle_negInf_iff _).mp hm).symm
  · by_cases h2 : XVal.le XVal.posInf (searchVal true f b mx XVal.negInf
        XVal.posInf) = true
    · have hg := (xposInf_le_iff _).mp h2
      have hm := h.2.1 h2
      rw [hg] at hm ⊢
      exact ((xposInf_le_iff _).mp hm).symm
    · exact h.2.2 ((xlt_iff _ _).mpr h1) ((xlt_iff _ _).mpr h2)

/-- C4: for every board, fuel and maximizing flag, the value computed by
`minimax` with alpha-beta pruning enabled equals the value computed with
pruning disabled at the full starting window (-inf, +inf); only the move
component may differ.  This covers in particular every board reachable
through legal play. -/
theorem claim_C4_pruning_preserves_value (fuel : Nat) (board : List Cell)
    (maximizing : Bool) :
    (minimax true fuel board maximizing XVal.negInf XVal.posInf).1.1
      = (minimax false fuel board maximizing XVal.negInf XVal.posInf).1.1 :=
  ab_eq_mm fuel board maximizing

/-! Value range: on 9-cell boards every search value lies in
[fin (-1), fin 1]. -/

theorem xle_fin_iff (a b : Int) :
    XVal.le (XVal.fin a) (XVal.fin b) = true ↔ a ≤ b := by
  simp [XVal.le]

theorem score_range (b : List Cell) :
    XVal.le (XVal.fin (-1)) (XVal.fin (score b)) = true ∧
    XVal.le (XVal.fin (score b)) (XVal.fin 1) = true := by
  rw [xle_fin_iff, xle_fin_iff]
  simp only [score]
  split
  · omega
  · split <;> omega

theorem maxLoop_range (useAB : Bool)
    (rec : List Cell → XVal → XVal → (XVal × Option Nat) × List Cell)
    (b : List Cell)
    (hres : ∀ b2 a3 β3, (rec b2 a3 β3).2 = b2)
    (hrange : ∀ (m : Nat) (a3 β3 : XVal),
      XVal.le (XVal.fin (-1)) ((rec (b.set m AI) a3 β3).1.1) = true ∧
      XVal.le ((rec (b.set m AI) a3 β3).1.1) (XVal.fin 1) = true) :
    ∀ (moves : List Nat), (∀ m ∈ moves, cellAt b m = EMPTY) →
    ∀ (g : XVal) (bm : Option Nat) (a2 β2 : XVal),
      (XVal.le (XVal.fin (-1)) g = true ∧ XVal.le g (XVal.fin 1) = true) ∨
        (g = XVal.negInf ∧ moves ≠ []) →
      XVal.le (XVal.fin (-1)) ((maxLoop useAB rec moves b g bm a2 β2).1.1) = true ∧
      XVal.le ((maxLoop useAB rec moves b g bm a2 β2).1.1) (XVal.fin 1) = true := by
  intro moves
  induction moves with
  | nil =>
    intro _ g bm a2 β2 hg
    rcases hg with hg | ⟨_, hcon⟩
    · exact hg
    · exact absurd rfl hcon
  | cons m rest ih =>
    intro hmv g bm a2 β2 hg
    have hm : cellAt b m = EMPTY := hmv m (by simp)
    have hrest : ∀ k ∈ rest, cellAt b k = EMPTY :=
      fun k hk => hmv k (by simp [hk])
    have hs := hrange m a2 β2
    have hg1 : XVal.le (XVal.fin (-1))
          (if XVal.lt g ((rec (b.set m AI) a2 β2).1.1) = true
           then (rec (b.set m AI) a2 β2).1.1 else g) = true ∧
        XVal.le (if XVal.lt g ((rec (b.set m AI) a2 β2).1.1) = true
           then (rec (b.set m AI) a2 β2).1.1 else g) (XVal.fin 1) = true := by
      by_cases hlt : XVal.lt g ((rec (b.set m AI) a2 β2).1.1) = true
      · rw [if_pos hlt]; exact hs
      · rw [if_neg hlt]
        rcases hg with hg | ⟨hneg, _⟩
        · exact hg
        · exfalso
          have h2 : XVal.le ((rec (b.set m AI) a2 β2).1.1) XVal.negInf = true :=
            hneg ▸ xle_of_not_lt hlt
          rw [(xle_negInf_iff _).mp h2] at hs
          exact Bool.noConfusion hs.1
    simp only [maxLoop, hres, set_restore b m AI hm]
    generalize hG : (if XVal.lt g ((rec (b.set m AI) a2 β2).1.1) = true
        then (rec (b.set m AI) a2 β2).1.1 else g) = g1
    rw [hG] at hg1
    cases useAB
    · simp only [Bool.false_eq_true, if_false]
      exact ih hrest _ _ _ _ (Or.inl hg1)
    · simp only [if_true]
      split
      · exact hg1
      · exact ih hrest _ _ _ _ (Or.inl hg1)

theorem minLoop_range (useAB : Bool)
    (rec : List Cell → XVal → XVal → (XVal × Option Nat) × List Cell)
    (b : List Cell)
    (hres : ∀ b2 a3 β3, (rec b2 a3 β3).2 = b2)
    (hrange : ∀ (m : Nat) (a3 β3 : XVal),
      XVal.le (XVal.fin (-1)) ((rec (b.set m HUMAN) a3 β3).1.1) = true ∧
      XVal.le ((rec (b.set m HUMAN) a3 β3).1.1) (XVal.fin 1) = true) :
    ∀ (moves : List Nat), (∀ m ∈ moves, cellAt b m = EMPTY) →
    ∀ (g : XVal) (bm : Option Nat) (a2 β2 : XVal),
      (XVal.le (XVal.fin (-1)) g = true ∧ XVal.le g (XVal.fin 1) = true) ∨
        (g = XVal.posInf ∧ moves ≠ []) →
      XVal.le (XVal.fin (-1)) ((minLoop useAB rec moves b g bm a2 β2).1.1) = true ∧
      XVal.le ((minLoop useAB rec moves b g bm a2 β2).1.1) (XVal.fin 1) = true := by
  intro moves
  induction moves with
  | nil =>
    intro _ g bm a2 β2 hg
    rcases hg with hg | ⟨_, hcon⟩
    · exact hg
    · exact absurd rfl hcon
  | cons m rest ih =>
    intro hmv g bm a2 β2 hg
    have hm : cellAt b m = EMPTY := hmv m (by simp)
    have hrest : ∀ k ∈ rest, cellAt b k = EMPTY :=
      fun k hk => hmv k (by simp [hk])
    have hs := hrange m a2 β2
    have hg1 : XVal.le (XVal.fin (-1))
          (if XVal.lt ((rec (b.set m HUMAN) a2 β2).1.1) g = true
           then (rec (b.set m HUMAN) a2 β2).1.1 else g) = true ∧
        XVal.le (if XVal.lt ((rec (b.set m HUMAN) a2 β2).1.1) g = true
           then (rec (b.set m HUMAN) a2 β2).1.1 else g) (XVal.fin 1) = true := by
      by_cases hlt : XVal.lt ((rec (b.set m HUMAN) a2 β2).1.1) g = true
      · rw [if_pos hlt]; exact hs
      · rw [if_neg hlt]
        rcases hg with hg | ⟨hpos, _⟩
        · exact hg
        · exfalso
          have h2 : XVal.le XVal.posInf ((rec (b.set m HUMAN) a2 β2).1.1) = true :=
            hpos ▸ xle_of_not_lt hlt
          rw [(xposInf_le_iff _).mp h2] at hs
          exact Bool.noConfusion hs.2
    simp only [minLoop, hres, set_restore b m HUMAN hm]
    generalize hG : (if XVal.lt ((rec (b.set m HUMAN) a2 β2).1.1) g = true
        then (rec (b.set m HUMAN) a2 β2).1.1 else g) = g1
    rw [hG] at hg1
    cases useAB
    · simp only [Bool.false_eq_true, if_false]
      exact ih hrest _ _ _ _ (Or.inl hg1)
    · simp only [if_true]
      split
      · exact hg1
      · exact ih hrest _ _ _ _ (Or.inl hg1)

theorem search_range (useAB : Bool) :
    ∀ (f : Nat) (b : List Cell), b.length = 9 →
    ∀ (mx : Bool) (a2 β2 : XVal),
      XVal.le (XVal.fin (-1)) (searchVal useAB f b mx a2 β2) = true ∧
      XVal.le (searchVal useAB f b mx a2 β2) (XVal.fin 1) = true := by
  intro f
  induction f with
  | zero =>
    intro b hlen mx a2 β2
    unfold searchVal
    by_cases hterm : is_terminal b = true
    · rw [minimax_terminal useAB 0 b mx a2 β2 hterm]
      exact score_range b
    · rw [minimax_zero useAB b mx a2 β2 (Bool.eq_false_iff.mpr hterm)]
      exact ⟨rfl, rfl⟩
  | succ f ihf =>
    intro b hlen mx a2 β2
    unfold searchVal
    by_cases hterm : is_terminal b = true
    · rw [minimax_terminal useAB (Nat.succ f) b mx a2 β2 hterm]
      exact score_range b
    · have hterm2 : is_terminal b = false := Bool.eq_false_iff.mpr hterm
      have hne : move_order b ≠ [] := move_order_ne_nil hlen hterm2
      have hmv : ∀ m ∈ move_order b, cellAt b m = EMPTY :=
        fun m hm => (move_order_mem hm).1
      cases mx
      · rw [minimax_succ_min useAB f b a2 β2 hterm2]
        refine minLoop_range useAB _ b
          (fun b3 a3 β3 => minimax_restores useAB f b3 true a3 β3) ?_
          (move_order b) hmv XVal.posInf none a2 β2 (Or.inr ⟨rfl, hne⟩)
        intro m a3 β3
        exact ihf (b.set m HUMAN) (by rw [List.length_set]; exact hlen) true a3 β3
      · rw [minimax_succ_max useAB f b a2 β2 hterm2]
        refine maxLoop_range useAB _ b
          (fun b3 a3 β3 => minimax_restores useAB f b3 false a3 β3) ?_
          (move_order b) hmv XVal.negInf none a2 β2 (Or.inr ⟨rfl, hne⟩)
        intro m a3 β3
        exact ihf (b.set m AI) (by rw [List.length_set]; exact hlen) false a3 β3

/-! Move quality at the full window: the maximizing loop returns a move
whose unpruned child value equals the returned value. -/

theorem xlt_posInf_of_le_fin {v : XVal} {n : Int}
    (h : XVal.le v (XVal.fin n) = true) : XVal.lt v XVal.posInf = true := by
  rw [xlt_iff]
  intro hcon
  rw [(xposInf_le_iff v).mp hcon] at h
  exact Bool.noConfusion h

theorem xlt_negInf_of_fin_le {v : XVal} {n : Int}
    (h : XVal.le (XVal.fin n) v = true) : XVal.lt XVal.negInf v = true := by
  rw [xlt_iff]
  intro hcon
  rw [(xle_negInf_iff v).mp hcon] at h
  exact Bool.noConfusion h


theorem xmax_cases (a b : XVal) : XVal.max a b = a ∨ XVal.max a b = b := by
  unfold XVal.max
  by_cases h : XVal.le a b = true
  · right; rw [if_pos h]
  · left; rw [if_neg h]

theorem maxLoop_quality (f : Nat) (b : List Cell)
    (rec : List Cell → XVal → XVal → (XVal × Option Nat) × List Cell)
    (hres : ∀ b2 a2 b3, (rec b2 a2 b3).2 = b2)
    (hrangeU : ∀ k, cellAt b k = EMPTY → k < 9 →
      XVal.le (chValMax f b k) (XVal.fin 1) = true) :
    ∀ (moves : List Nat),
      (∀ m ∈ moves, cellAt b m = EMPTY ∧ m < 9) →
      (∀ m ∈ moves, ∀ a2 β2, XVal.lt a2 β2 = true →
        (XVal.le ((rec (b.set m AI) a2 β2).1.1) a2 = true →
           XVal.le (chValMax f b m) ((rec (b.set m AI) a2 β2).1.1) = true) ∧
        (XVal.le β2 ((rec (b.set m AI) a2 β2).1.1) = true →
           XVal.le ((rec (b.set m AI) a2 β2).1.1) (chValMax f b m) = true) ∧
        (XVal.lt a2 ((rec (b.set m AI) a2 β2).1.1) = true →
           XVal.lt ((rec (b.set m AI) a2 β2).1.1) β2 = true →
           (rec (b.set m AI) a2 β2).1.1 = chValMax f b m)) →
      (∀ m ∈ moves, ∀ a3 β3,
        XVal.le (XVal.fin (-1)) ((rec (b.set m AI) a3 β3).1.1) = true ∧
        XVal.le ((rec (b.set m AI) a3 β3).1.1) (XVal.fin 1) = true) →
      ∀ (g0 : XVal) (bm : Option Nat),
        ((bm = none ∧ g0 = XVal.negInf) ∨
          (∃ k, bm = some k ∧ chValMax f b k = g0 ∧ cellAt b k = EMPTY ∧ k < 9)) →
        (((maxLoop true rec moves b g0 bm g0 XVal.posInf).1.2 = none ∧
            (maxLoop true rec moves b g0 bm g0 XVal.posInf).1.1 = XVal.negInf) ∨
          (∃ k, (maxLoop true rec moves b g0 bm g0 XVal.posInf).1.2 = some k ∧
            chValMax f b k = (maxLoop true rec moves b g0 bm g0 XVal.posInf).1.1 ∧
            cellAt b k = EMPTY ∧ k < 9)) ∧
        ((moves ≠ [] ∨ bm ≠ none) →
          (maxLoop true rec moves b g0 bm g0 XVal.posInf).1.2 ≠ none) := by
  intro moves
  induction moves with
  | nil =>
    intro _ _ _ g0 bm hq
    refine ⟨?_, ?_⟩
    · rcases hq with ⟨h1, h2⟩ | ⟨k, h1, h2⟩
      · exact Or.inl ⟨h1, h2⟩
      · exact Or.inr ⟨k, h1, h2⟩
    · intro hne
      rcases hne with hne | hne
      · exact absurd rfl hne
      · rcases hq with ⟨h1, _⟩ | ⟨k, h1, _⟩
        · exact absurd h1 hne
        · intro hcon
          rw [h1] at hcon
          exact Option.noConfusion hcon
  | cons m rest ih =>
    intro hmv htri hrange g0 bm hq
    have hm : cellAt b m = EMPTY := (hmv m (by simp)).1
    have hm9 : m < 9 := (hmv m (by simp)).2
    have hrest := fun k (hk : k ∈ rest) => hmv k (List.mem_cons_of_mem m hk)
    have htrest := fun k (hk : k ∈ rest) => htri k (List.mem_cons_of_mem m hk)
    have hrrest := fun k (hk : k ∈ rest) => hrange k (List.mem_cons_of_mem m hk)
    have hsr := hrange m (by simp) g0 XVal.posInf
    have hg0pos : XVal.lt g0 XVal.posInf = true := by
      rcases hq with ⟨_, hneg⟩ | ⟨k, _, hval, hke, hk9⟩
      · rw [hneg]; decide
      · rw [← hval]
        exact xlt_posInf_of_le_fin (hrangeU k hke hk9)
    have d := htri m (by simp) g0 XVal.posInf hg0pos
    by_cases hlt : XVal.lt g0 ((rec (b.set m AI) g0 XVal.posInf).1.1) = true
    · -- the child is selected and achieves its true value
      have hs_eq : (rec (b.set m AI) g0 XVal.posInf).1.1 = chValMax f b m :=
        d.2.2 hlt (xlt_posInf_of_le_fin hsr.2)
      have hcut : XVal.le XVal.posInf
          (XVal.max g0 ((rec (b.set m AI) g0 XVal.posInf).1.1)) = false := by
        apply Bool.eq_false_iff.mpr
        intro hcon
        have hmaxeq := (xposInf_le_iff _).mp hcon
        rcases xmax_cases g0 ((rec (b.set m AI) g0 XVal.posInf).1.1) with he | he
        · rw [he] at hmaxeq
          rw [hmaxeq] at hg0pos
          exact Bool.noConfusion hg0pos
        · rw [he] at hmaxeq
          have := xlt_posInf_of_le_fin hsr.2
          rw [hmaxeq] at this
          exact Bool.noConfusion this
      have hstep : maxLoop true rec (m :: rest) b g0 bm g0 XVal.posInf
          = maxLoop true rec rest b ((rec (b.set m AI) g0 XVal.posInf).1.1)
              (some m)
              (XVal.max g0 ((rec (b.set m AI) g0 XVal.posInf).1.1))
              XVal.posInf := by
        simp only [maxLoop, if_true, hres, set_restore b m AI hm, hlt, if_pos,
          hcut, Bool.false_eq_true, if_false]
      have hα : XVal.max g0 ((rec (b.set m AI) g0 XVal.posInf).1.1)
          = (rec (b.set m AI) g0 XVal.posInf).1.1 :=
        xmax_eq_right (xle_of_lt hlt)
      rw [hstep, hα]
      have hrec := ih hrest htrest hrrest
        ((rec (b.set m AI) g0 XVal.posInf).1.1) (some m)
        (Or.inr ⟨m, rfl, hs_eq.symm, hm, hm9⟩)
      refine ⟨hrec.1, fun _ => hrec.2 (Or.inr ?_)⟩
      intro hcon
      exact Option.noConfusion hcon
    · -- the stored best is kept
      rcases hq with ⟨hbm, hneg⟩ | hq2
      · exfalso
        apply hlt
        have h2 := xlt_negInf_of_fin_le hsr.1
        rwa [← hneg] at h2
      · have hcut : XVal.le XVal.posInf (XVal.max g0 g0) = false := by
          apply Bool.eq_false_iff.mpr
          intro hcon
          have hmaxeq := (xposInf_le_iff _).mp hcon
          rcases xmax_cases g0 g0 with he | he <;>
            (rw [he] at hmaxeq; rw [hmaxeq] at hg0pos; exact Bool.noConfusion hg0pos)
        have hstep : maxLoop true rec (m :: rest) b g0 bm g0 XVal.posInf
            = maxLoop true rec rest b g0 bm (XVal.max g0 g0) XVal.posInf := by
          simp only [maxLoop, if_true, hres, set_restore b m AI hm, hlt,
            Bool.false_eq_true, if_false, hcut]
        rw [hstep, xmax_eq_right (xle_refl g0)]
        have hrec := ih hrest htrest hrrest g0 bm (Or.inr hq2)
        refine ⟨hrec.1, fun _ => hrec.2 (Or.inr ?_)⟩
        rcases hq2 with ⟨k, hbm, _⟩
        rw [hbm]
        intro hcon
        exact Option.noConfusion hcon

/-- At a non-terminal 9-cell position the full-window pruned search (the
engine's move computation) returns a move, and that move's unpruned
child value equals the returned value. -/
theorem best_move_quality (f : Nat) (b : List Cell) (hlen : b.length = 9)
    (hterm : is_terminal b = false) :
    ∃ k, (minimax true (Nat.succ f) b true XVal.negInf XVal.posInf).1.2 = some k ∧
      cellAt b k = EMPTY ∧ k < 9 ∧
      chValMax f b k
        = (minimax true (Nat.succ f) b true XVal.negInf XVal.posInf).1.1 := by
  rw [minimax_succ_max true f b XVal.negInf XVal.posInf hterm]
  have hmv : ∀ m ∈ move_order b, cellAt b m = EMPTY ∧ m < 9 :=
    fun m hm => move_order_mem hm
  have htri : ∀ m ∈ move_order b, ∀ a2 β2, XVal.lt a2 β2 = true →
      (XVal.le ((minimax true f (b.set m AI) false a2 β2).1.1) a2 = true →
         XVal.le (chValMax f b m)
           ((minimax true f (b.set m AI) false a2 β2).1.1) = true) ∧
      (XVal.le β2 ((minimax true f (b.set m AI) false a2 β2).1.1) = true →
         XVal.le ((minimax true f (b.set m AI) false a2 β2).1.1)
           (chValMax f b m) = true) ∧
      (XVal.lt a2 ((minimax true f (b.set m AI) false a2 β2).1.1) = true →
         XVal.lt ((minimax true f (b.set m AI) false a2 β2).1.1) β2 = true →
         (minimax true f (b.set m AI) false a2 β2).1.1 = chValMax f b m) :=
    fun m _ a2 β2 h2 => minimax_tri f (b.set m AI) false a2 β2 h2
  have hrange : ∀ m ∈ move_order b, ∀ a3 β3,
      XVal.le (XVal.fin (-1)) ((minimax true f (b.set m AI) false a3 β3).1.1) = true ∧
      XVal.le ((minimax true f (b.set m AI) false a3 β3).1.1) (XVal.fin 1) = true :=
    fun m _ a3 β3 =>
      search_range true f (b.set m AI)
        (by rw [List.length_set]; exact hlen) false a3 β3
  have hrangeU : ∀ k, cellAt b k = EMPTY → k < 9 →
      XVal.le (chValMax f b k) (XVal.fin 1) = true :=
    fun k _ _ =>
      (search_range false f (b.set k AI)
        (by rw [List.length_set]; exact hlen) false XVal.negInf XVal.posInf).2
  have hq := maxLoop_quality f b _
    (fun b3 a3 β3 => minimax_restores true f b3 false a3 β3) hrangeU
    (move_order b) hmv htri hrange XVal.negInf none (Or.inl ⟨rfl, rfl⟩)
  rcases hq.1 with ⟨hnone, _⟩ | ⟨k, hk, hv, hke, hk9⟩
  · exact absurd hnone (hq.2 (Or.inl (move_order_ne_nil hlen hterm)))
  · exact ⟨k, hk, hke, hk9, hv⟩

/-! Fuel stability of the unpruned search. -/

theorem maxLoop_congr_u
    (rec1 rec2 : List Cell → XVal → XVal → (XVal × Option Nat) × List Cell)
    (b : List Cell)
    (hres1 : ∀ b2 a2 b3, (rec1 b2 a2 b3).2 = b2) :
    ∀ (moves : List Nat), (∀ m ∈ moves, cellAt b m = EMPTY) →
    ∀ (a2 β2 : XVal),
      (∀ m ∈ moves, rec1 (b.set m AI) a2 β2 = rec2 (b.set m AI) a2 β2) →
    ∀ g bm,
      maxLoop false rec1 moves b g bm a2 β2 = maxLoop false rec2 moves b g bm a2 β2 := by
  intro moves
  induction moves with
  | nil => intro _ _ _ _ _ _; rfl
  | cons m rest ih =>
    intro hmv a2 β2 hpt g bm
    have hm : cellAt b m = EMPTY := hmv m (by simp)
    have hrest := fun k (hk : k ∈ rest) => hmv k (List.mem_cons_of_mem m hk)
    have hptrest := fun k (hk : k ∈ rest) => hpt k (List.mem_cons_of_mem m hk)
    simp only [maxLoop, Bool.false_eq_true, if_false]
    rw [← hpt m (by simp)]
    simp only [hres1, set_restore b m AI hm]
    exact ih hrest a2 β2 hptrest _ _

theorem minLoop_congr_u
    (rec1 rec2 : List Cell → XVal → XVal → (XVal × Option Nat) × List Cell)
    (b : List Cell)
    (hres1 : ∀ b2 a2 b3, (rec1 b2 a2 b3).2 = b2) :
    ∀ (moves : List Nat), (∀ m ∈ moves, cellAt b m = EMPTY) →
    ∀ (a2 β2 : XVal),
      (∀ m ∈ moves, rec1 (b.set m HUMAN) a2 β2 = rec2 (b.set m HUMAN) a2 β2) →
    ∀ g bm,
      minLoop false rec1 moves b g bm a2 β2 = minLoop false rec2 moves b g bm a2 β2 := by
  intro moves
  induction moves with
  | nil => intro _ _ _ _ _ _; rfl
  | cons m rest ih =>
    intro hmv a2 β2 hpt g bm
    have hm : cellAt b m = EMPTY := hmv m (by simp)
    have hrest := fun k (hk : k ∈ rest) => hmv k (List.mem_cons_of_mem m hk)
    have hptrest := fun k (hk : k ∈ rest) => hpt k (List.mem_cons_of_mem m hk)
    simp only [minLoop, Bool.false_eq_true, if_false]
    rw [← hpt m (by simp)]
    simp only [hres1, set_restore b m HUMAN hm]
    exact ih hrest a2 β2 hptrest _ _

theorem mm_fuel_step : ∀ (f : Nat) (b : List Cell), b.length = 9 →
    ∀ (mx : Bool), emptyCount b ≤ f →
    minimax false f b mx XVal.negInf XVal.posInf
      = minimax false (Nat.succ f) b mx XVal.negInf XVal.posInf := by
  intro f
  induction f with
  | zero =>
    intro b _ mx hcnt
    have hterm : is_terminal b = true := by
      unfold is_terminal
      have h0 : (available_moves b).length = 0 := Nat.le_zero.mp hcnt
      rw [List.length_eq_zero] at h0
      simp [h0]
    rw [minimax_terminal false 0 b mx XVal.negInf XVal.posInf hterm,
      minimax_terminal false 1 b mx XVal.negInf XVal.posInf hterm]
  | succ f ihf =>
    intro b hlen mx hcnt
    by_cases hterm : is_terminal b = true
    · rw [minimax_terminal false (Nat.succ f) b mx XVal.negInf XVal.posInf hterm,
        minimax_terminal false (Nat.succ (Nat.succ f)) b mx XVal.negInf
          XVal.posInf hterm]
    · have hterm2 : is_terminal b = false := Bool.eq_false_iff.mpr hterm
      have hmv : ∀ m ∈ move_order b, cellAt b m = EMPTY :=
        fun m hm => (move_order_mem hm).1
      have hcnt2 : ∀ m ∈ move_order b, ∀ (v : Cell), (v == EMPTY) = false →
          emptyCount (b.set m v) ≤ f := by
        intro m hm v hv
        have h2 := emptyCount_set (move_order_mem hm).1
          (by rw [hlen]; exact (move_order_mem hm).2) hv
        omega
      cases mx
      · rw [minimax_succ_min false f b XVal.negInf XVal.posInf hterm2,
          minimax_succ_min false (Nat.succ f) b XVal.negInf XVal.posInf hterm2]
        apply minLoop_congr_u _ _ b
          (fun b3 a3 β3 => minimax_restores false f b3 true a3 β3)
          (move_order b) hmv XVal.negInf XVal.posInf
        intro m hm
        exact ihf (b.set m HUMAN) (by rw [List.length_set]; exact hlen) true
          (hcnt2 m hm HUMAN (by decide))
      · rw [minimax_succ_max false f b XVal.negInf XVal.posInf hterm2,
          minimax_succ_max false (Nat.succ f) b XVal.negInf XVal.posInf hterm2]
        apply maxLoop_congr_u _ _ b
          (fun b3 a3 β3 => minimax_restores false f b3 false a3 β3)
          (move_order b) hmv XVal.negInf XVal.posInf
        intro m hm
        exact ihf (b.set m AI) (by rw [List.length_set]; exact hlen) false
          (hcnt2 m hm AI (by decide))

/-! The game induction: the engine never loses. -/

theorem mm_min_child_ge (f : Nat) (b : List Cell) (hlen : b.length = 9)
    (hterm : is_terminal b = false) (m : Nat) (hm : m ∈ available_moves b) :
    XVal.le (mmVal (Nat.succ f) b false) (mmVal f (b.set m HUMAN) true) = true := by
  rw [mm_min_eq f b hterm]
  have hmo : m ∈ move_order b := (perm_move_order_avail hlen).mem_iff.mpr hm
  exact uMin_le_of_mem f b (move_order b) XVal.posInf m hmo

theorem terminal_of_winner {b : List Cell} {w : Cell} (h : winner b = some w) :
    is_terminal b = true := by
  unfold is_terminal
  rw [h]
  rfl

theorem score_human {b : List Cell} (h : winner b = some HUMAN) :
    score b = -1 := by
  simp [score, h, HUMAN, AI]

theorem winner_some_ne_empty {b : List Cell} {w : Cell}
    (h : winner b = some w) : w ≠ EMPTY := by
  unfold winner at h
  obtain ⟨t, _, hlm⟩ := List.exists_of_findSome?_eq_some h
  exact (lineMark_some_iff.mp hlm).1

theorem emptyCount_le_9 {b : List Cell} (hlen : b.length = 9) :
    emptyCount b ≤ 9 := by
  unfold emptyCount
  rw [avail_eq, hlen]
  calc (List.filter (fun i => cellAt b i == EMPTY) (List.range 9)).length
      ≤ (List.range 9).length := List.length_filter_le _ _
    _ = 9 := List.length_range 9

theorem emptyCount_pos {b : List Cell} (hterm : is_terminal b = false) :
    0 < emptyCount b := by
  have hne := ((is_terminal_false_iff b).mp hterm).2
  unfold emptyCount
  exact List.length_pos.mpr hne

theorem beq_winner_human_false {b : List Cell} {f : Nat} {mx : Bool}
    (hval : XVal.le (XVal.fin 0) (mmVal f b mx) = true) :
    (winner b == some HUMAN) = false := by
  apply Bool.eq_false_iff.mpr
  intro hcon
  have hW : winner b = some HUMAN := by simpa using hcon
  have hterm : is_terminal b = true := terminal_of_winner hW
  have h2 : mmVal f b mx = XVal.fin (score b) := by
    unfold mmVal searchVal
    rw [minimax_terminal false f b mx XVal.negInf XVal.posInf hterm]
  rw [h2, score_human hW] at hval
  exact absurd hval (by decide)

theorem winner_none_of_not_marks {b : List Cell}
    (hX : (winner b == some HUMAN) = false)
    (hO : (winner b == some AI) = false) : winner b = none := by
  cases hw : winner b with
  | none => rfl
  | some w =>
    cases w with
    | E => exact absurd rfl (winner_some_ne_empty hw)
    | X => rw [hw] at hX; exact absurd hX (by decide)
    | O => rw [hw] at hO; exact absurd hO (by decide)

theorem noHumanWin_of_value : ∀ (fuel : Nat) (b : List Cell),
    b.length = 9 → is_terminal b = false → emptyCount b < 2 * fuel →
    XVal.le (XVal.fin 0) (mmVal 9 b false) = true →
    noHumanWin fuel b = true := by
  intro fuel
  induction fuel with
  | zero =>
    intro b _ hterm hcnt _
    have := emptyCount_pos hterm
    omega
  | succ fl ih =>
    intro b hlen hterm hcnt hval
    have hcle9 : emptyCount b ≤ 9 := emptyCount_le_9 hlen
    simp only [noHumanWin]
    rw [List.all_eq_true]
    intro m hm
    obtain ⟨hmlt, hmE⟩ := avail_mem.mp hm
    have hmlt9 : m < 9 := by rw [hlen] at hmlt; exact hmlt
    have hlen1 : (b.set m HUMAN).length = 9 := by
      rw [List.length_set]; exact hlen
    have hcnt1 : emptyCount (b.set m HUMAN) + 1 = emptyCount b :=
      emptyCount_set hmE hmlt (by decide)
    have hv8 : XVal.le (XVal.fin 0) (mmVal 8 (b.set m HUMAN) true) = true :=
      xle_trans hval (mm_min_child_ge 8 b hlen hterm m hm)
    have hnotH1 : (winner (b.set m HUMAN) == some HUMAN) = false :=
      beq_winner_human_false hv8
    rw [hnotH1]
    simp only [Bool.false_eq_true, if_false]
    by_cases hA : (winner (b.set m HUMAN) == some AI) = true
    · simp [hA]
    · rw [Bool.eq_false_iff.mpr hA]
      simp only [Bool.false_eq_true, if_false]
      by_cases hF : (available_moves (b.set m HUMAN)).isEmpty = true
      · simp [hF]
      · rw [Bool.eq_false_iff.mpr hF]
        simp only [Bool.false_eq_true, if_false]
        have hterm1 : is_terminal (b.set m HUMAN) = false := by
          refine (is_terminal_false_iff _).mpr
            ⟨winner_none_of_not_marks hnotH1 (Bool.eq_false_iff.mpr hA), ?_⟩
          intro hcon
          exact hF (by rw [hcon]; rfl)
        obtain ⟨k, hk, hke, hk9, hkv⟩ := best_move_quality 8 (b.set m HUMAN)
          hlen1 hterm1
        have hbam : best_ai_move (b.set m HUMAN) = some k := hk
        rw [hbam]
        dsimp only
        have hklt : k < (b.set m HUMAN).length := by rw [hlen1]; exact hk9
        have hlen2 : ((b.set m HUMAN).set k AI).length = 9 := by
          rw [List.length_set]; exact hlen1
        have hcnt2 : emptyCount ((b.set m HUMAN).set k AI) + 1
            = emptyCount (b.set m HUMAN) :=
          emptyCount_set hke hklt (by decide)
        -- the engine move preserves a non-negative value
        have hstab1 : mmVal 8 (b.set m HUMAN) true = mmVal 9 (b.set m HUMAN) true := by
          unfold mmVal searchVal
          rw [mm_fuel_step 8 (b.set m HUMAN) hlen1 true (by omega)]
        have habmm : (minimax true 9 (b.set m HUMAN) true XVal.negInf
            XVal.posInf).1.1 = mmVal 9 (b.set m HUMAN) true :=
          ab_eq_mm 9 (b.set m HUMAN) true
        have hv2_8 : XVal.le (XVal.fin 0)
            (mmVal 8 ((b.set m HUMAN).set k AI) false) = true := by
          have h3 : chValMax 8 (b.set m HUMAN) k
              = mmVal 9 (b.set m HUMAN) true := by rw [hkv]; exact habmm
          have h4 : mmVal 8 ((b.set m HUMAN).set k AI) false
              = mmVal 9 (b.set m HUMAN) true := h3
          rw [h4, ← hstab1]
          exact hv8
        have hnotH2 : (winner ((b.set m HUMAN).set k AI) == some HUMAN) = false :=
          beq_winner_human_false hv2_8
        rw [hnotH2]
        simp only [Bool.false_eq_true, if_false]
        by_cases hA2 : (winner ((b.set m HUMAN).set k AI) == some AI) = true
        · simp [hA2]
        · rw [Bool.eq_false_iff.mpr hA2]
          simp only [Bool.false_eq_true, if_false]
          by_cases hF2 : (available_moves ((b.set m HUMAN).set k AI)).isEmpty = true
          · simp [hF2]
          · rw [Bool.eq_false_iff.mpr hF2]
            simp only [Bool.false_eq_true, if_false]
            have hterm2 : is_terminal ((b.set m HUMAN).set k AI) = false := by
              refine (is_terminal_false_iff _).mpr
                ⟨winner_none_of_not_marks hnotH2 (Bool.eq_false_iff.mpr hA2), ?_⟩
              intro hcon
              exact hF2 (by rw [hcon]; rfl)
            have hstab2 : mmVal 8 ((b.set m HUMAN).set k AI) false
                = mmVal 9 ((b.set m HUMAN).set k AI) false := by
              unfold mmVal searchVal
              rw [mm_fuel_step 8 ((b.set m HUMAN).set k AI) hlen2 false (by omega)]
            apply ih ((b.set m HUMAN).set k AI) hlen2 hterm2 (by omega)
            rw [← hstab2]
            exact hv2_8

/-! Mark-swap symmetry: exchanging the two marks negates the unpruned
value and flips the player to move. -/

theorem swapCell_beq_empty (c : Cell) : (swapCell c == EMPTY) = (c == EMPTY) := by
  cases c <;> rfl

theorem swapCell_beq (a b : Cell) : (swapCell a == swapCell b) = (a == b) := by
  cases a <;> cases b <;> rfl

theorem swapB_length (b : List Cell) : (swapB b).length = b.length :=
  List.length_map b swapCell

theorem cellAt_swap (b : List Cell) (i : Nat) :
    cellAt (swapB b) i = swapCell (cellAt b i) := by
  induction b generalizing i with
  | nil => cases i <;> rfl
  | cons c t ih =>
    cases i with
    | zero => rfl
    | succ j => exact ih j

theorem lineMark_swap (b : List Cell) (t : Nat × Nat × Nat) :
    lineMark (swapB b) t = Option.map swapCell (lineMark b t) := by
  simp only [lineMark, cellAt_swap, swapCell_beq_empty, swapCell_beq]
  split <;> rfl

theorem findSome_lineMark_swap (L : List (Nat × Nat × Nat)) (b : List Cell) :
    L.findSome? (lineMark (swapB b))
      = Option.map swapCell (L.findSome? (lineMark b)) := by
  induction L with
  | nil => rfl
  | cons t rest ih =>
    rw [List.findSome?_cons, List.findSome?_cons, lineMark_swap]
    cases lineMark b t <;> simp [ih]

theorem winner_swap (b : List Cell) :
    winner (swapB b) = Option.map swapCell (winner b) := by
  unfold winner
  exact findSome_lineMark_swap WIN_LINES b

theorem score_swap (b : List Cell) : score (swapB b) = -(score b) := by
  cases hw : winner b with
  | none => simp [score, winner_swap, hw]
  | some w =>
    cases w <;> simp [score, winner_swap, hw, swapCell, HUMAN, AI, EMPTY]

theorem avail_swap (b : List Cell) :
    available_moves (swapB b) = available_moves b := by
  rw [avail_eq, avail_eq, swapB_length]
  apply List.filter_congr
  intro i _
  rw [cellAt_swap, swapCell_beq_empty]

theorem move_order_swap (b : List Cell) :
    move_order (swapB b) = move_order b := by
  rw [move_order_eq_filter, move_order_eq_filter]
  apply List.filter_congr
  intro i _
  rw [cellAt_swap, swapCell_beq_empty]

theorem is_terminal_swap (b : List Cell) :
    is_terminal (swapB b) = is_terminal b := by
  unfold is_terminal
  rw [winner_swap, avail_swap]
  cases winner b <;> rfl

theorem swapB_set (b : List Cell) (m : Nat) (c : Cell) :
    swapB (b.set m c) = (swapB b).set m (swapCell c) := by
  unfold swapB
  exact List.map_set

theorem xneg_le (a b : XVal) : XVal.le (xneg a) (xneg b) = XVal.le b a := by
  cases a <;> cases b <;> simp [XVal.le, xneg] <;> omega

theorem xneg_lt (a b : XVal) : XVal.lt (xneg a) (xneg b) = XVal.lt b a := by
  rw [xlt_eq_not_le, xlt_eq_not_le, xneg_le]

theorem mm_swap : ∀ (f : Nat) (b : List Cell) (mx : Bool),
    mmVal f (swapB b) mx = xneg (mmVal f b (!mx)) := by
  intro f
  induction f with
  | zero =>
    intro b mx
    unfold mmVal searchVal
    cases hterm : is_terminal b with
    | true =>
      rw [minimax_terminal false 0 b (!mx) XVal.negInf XVal.posInf hterm,
        minimax_terminal false 0 (swapB b) mx XVal.negInf XVal.posInf
          (by rw [is_terminal_swap]; exact hterm)]
      simp [xneg, score_swap]
    | false =>
      show (minimax false 0 (swapB b) mx XVal.negInf XVal.posInf).1.1
        = xneg (minimax false 0 b (!mx) XVal.negInf XVal.posInf).1.1
      rw [minimax_zero false (swapB b) mx XVal.negInf XVal.posInf
          (by rw [is_terminal_swap]; exact hterm),
        minimax_zero false b (!mx) XVal.negInf XVal.posInf hterm]
      simp [xneg]
  | succ f ihf =>
    intro b mx
    cases hterm : is_terminal b with
    | true =>
      unfold mmVal searchVal
      rw [minimax_terminal false (Nat.succ f) b (!mx) XVal.negInf XVal.posInf
          hterm,
        minimax_terminal false (Nat.succ f) (swapB b) mx XVal.negInf XVal.posInf
          (by rw [is_terminal_swap]; exact hterm)]
      simp [xneg, score_swap]
    | false =>
      have hterm2 : is_terminal (swapB b) = false := by
        rw [is_terminal_swap]; exact hterm
      have hchMax : ∀ m, chValMax f (swapB b) m = xneg (chValMin f b m) := by
        intro m
        unfold chValMax chValMin
        have hset : (swapB b).set m AI = swapB (b.set m HUMAN) := by
          rw [swapB_set]; rfl
        rw [hset, ihf (b.set m HUMAN) false]
        rfl
      have hchMin : ∀ m, chValMin f (swapB b) m = xneg (chValMax f b m) := by
        intro m
        unfold chValMax chValMin
        have hset : (swapB b).set m HUMAN = swapB (b.set m AI) := by
          rw [swapB_set]; rfl
        rw [hset, ihf (b.set m AI) true]
        rfl
      cases mx with
      | true =>
        have hloopMax : ∀ (L : List Nat) (g : XVal),
            uMax f (swapB b) L (xneg g) = xneg (uMin f b L g) := by
          intro L
          induction L with
          | nil => intro g; rfl
          | cons m rest ihL =>
            intro g
            show uMax f (swapB b) rest
                (if XVal.lt (xneg g) (chValMax f (swapB b) m) = true
                  then chValMax f (swapB b) m else xneg g)
              = xneg (uMin f b rest
                (if XVal.lt (chValMin f b m) g = true
                  then chValMin f b m else g))
            rw [hchMax m, xneg_lt]
            by_cases hc : XVal.lt (chValMin f b m) g = true
            · rw [if_pos hc, if_pos hc]
              exact ihL (chValMin f b m)
            · rw [if_neg hc, if_neg hc]
              exact ihL g
        rw [mm_max_eq f (swapB b) hterm2, move_order_swap]
        show uMax f (swapB b) (move_order b) (xneg XVal.posInf)
          = xneg (mmVal (Nat.succ f) b false)
        rw [hloopMax (move_order b) XVal.posInf, mm_min_eq f b hterm]
      | false =>
        have hloopMin : ∀ (L : List Nat) (g : XVal),
            uMin f (swapB b) L (xneg g) = xneg (uMax f b L g) := by
          intro L
          induction L with
          | nil => intro g; rfl
          | cons m rest ihL =>
            intro g
            show uMin f (swapB b) rest
                (if XVal.lt (chValMin f (swapB b) m) (xneg g) = true
                  then chValMin f (swapB b) m else xneg g)
              = xneg (uMax f b rest
                (if XVal.lt g (chValMax f b m) = true
                  then chValMax f b m else g))
            rw [hchMin m, xneg_lt]
            by_cases hc : XVal.lt g (chValMax f b m) = true
            · rw [if_pos hc, if_pos hc]
              exact ihL (chValMax f b m)
            · rw [if_neg hc, if_neg hc]
              exact ihL g
        rw [mm_min_eq f (swapB b) hterm2, move_order_swap]
        show uMin f (swapB b) (move_order b) (xneg XVal.negInf)
          = xneg (mmVal (Nat.succ f) b true)
        rw [hloopMin (move_order b) XVal.negInf, mm_max_eq f b hterm]

theorem swapB_empty : swapB emptyBoard = emptyBoard := rfl

theorem uMax_le (f : Nat) (b : List Cell) :
    ∀ (L : List Nat) (g c : XVal), XVal.le g c = true →
      (∀ m ∈ L, XVal.le (chValMax f b m) c = true) →
      XVal.le (uMax f b L g) c = true := by
  intro L
  induction L with
  | nil => intro g c hg _; exact hg
  | cons m rest ih =>
    intro g c hg hall
    show XVal.le (uMax f b rest
      (if XVal.lt g (chValMax f b m) = true then chValMax f b m else g)) c
      = true
    have hm : XVal.le (chValMax f b m) c = true :=
      hall m (List.mem_cons_self m rest)
    have hrest : ∀ m2 ∈ rest, XVal.le (chValMax f b m2) c = true := by
      intro m2 hk
      exact hall m2 (List.mem_cons_of_mem m hk)
    by_cases hc : XVal.lt g (chValMax f b m) = true
    · rw [if_pos hc]; exact ih (chValMax f b m) c hm hrest
    · rw [if_neg hc]; exact ih g c hg hrest

/-! Kernel-evaluated searches on the empty board: one null-window probe
for the lower bound, and one per opening move of the engine for the upper
bound, each at fuel 8. The fail-soft trichotomy lifts the probe results
to the unpruned values. -/

set_option maxRecDepth 100000 in
theorem empty_nw_max_lo :
    XVal.le (XVal.fin 0)
      (searchVal true 9 emptyBoard true (XVal.fin (-1)) (XVal.fin 0)) = true := by
  decide!

set_option maxRecDepth 100000 in
theorem empty_child0_hi :
    XVal.le (searchVal true 8 (emptyBoard.set 0 AI) false (XVal.fin 0)
      (XVal.fin 1)) (XVal.fin 0) = true := by
  decide!

set_option maxRecDepth 100000 in
theorem empty_child1_hi :
    XVal.le (searchVal true 8 (emptyBoard.set 1 AI) false (XVal.fin 0)
      (XVal.fin 1)) (XVal.fin 0) = true := by
  decide!

set_option maxRecDepth 100000 in
theorem empty_child2_hi :
    XVal.le (searchVal true 8 (emptyBoard.set 2 AI) false (XVal.fin 0)
      (XVal.fin 1)) (XVal.fin 0) = true := by
  decide!

set_option maxRecDepth 100000 in
theorem empty_child3_hi :
    XVal.le (searchVal true 8 (emptyBoard.set 3 AI) false (XVal.fin 0)
      (XVal.fin 1)) (XVal.fin 0) = true := by
  decide!

set_option maxRecDepth 100000 in
theorem empty_child4_hi :
    XVal.le (searchVal true 8 (emptyBoard.set 4 AI) false (XVal.fin 0)
      (XVal.fin 1)) (XVal.fin 0) = true := by
  decide!

set_option maxRecDepth 100000 in
theorem empty_child5_hi :
    XVal.le (searchVal true 8 (emptyBoard.set 5 AI) false (XVal.fin 0)
      (XVal.fin 1)) (XVal.fin 0) = true := by
  decide!

set_option maxRecDepth 100000 in
theorem empty_child6_hi :
    XVal.le (searchVal true 8 (emptyBoard.set 6 AI) false (XVal.fin 0)
      (XVal.fin 1)) (XVal.fin 0) = true := by
  decide!

set_option maxRecDepth 100000 in
theorem empty_child7_hi :
    XVal.le (searchVal true 8 (emptyBoard.set 7 AI) false (XVal.fin 0)
      (XVal.fin 1)) (XVal.fin 0) = true := by
  decide!

set_option maxRecDepth 100000 in
theorem empty_child8_hi :
    XVal.le (searchVal true 8 (emptyBoard.set 8 AI) false (XVal.fin 0)
      (XVal.fin 1)) (XVal.fin 0) = true := by
  decide!

theorem child_hi_bound (m : Nat)
    (h : XVal.le (searchVal true 8 (emptyBoard.set m AI) false (XVal.fin 0)
      (XVal.fin 1)) (XVal.fin 0) = true) :
    XVal.le (chValMax 8 emptyBoard m) (XVal.fin 0) = true := by
  have htri := minimax_tri 8 (emptyBoard.set m AI) false (XVal.fin 0)
    (XVal.fin 1) (by decide)
  exact xle_trans (htri.1 h) h

theorem empty_mm_max_le_zero :
    XVal.le (mmVal 9 emptyBoard true) (XVal.fin 0) = true := by
  have h9 : mmVal 9 emptyBoard true
      = uMax 8 emptyBoard (move_order emptyBoard) XVal.negInf :=
    mm_max_eq 8 emptyBoard (by decide)
  rw [h9]
  apply uMax_le 8 emptyBoard (move_order emptyBoard) XVal.negInf (XVal.fin 0)
    (by decide)
  intro m hm
  have hL : move_order emptyBoard = [4, 0, 2, 6, 8, 1, 3, 5, 7] := by decide
  rw [hL] at hm
  simp at hm
  rcases hm with rfl | rfl | rfl | rfl | rfl | rfl | rfl | rfl | rfl
  · exact child_hi_bound 4 empty_child4_hi
  · exact child_hi_bound 0 empty_child0_hi
  · exact child_hi_bound 2 empty_child2_hi
  · exact child_hi_bound 6 empty_child6_hi
  · exact child_hi_bound 8 empty_child8_hi
  · exact child_hi_bound 1 empty_child1_hi
  · exact child_hi_bound 3 empty_child3_hi
  · exact child_hi_bound 5 empty_child5_hi
  · exact child_hi_bound 7 empty_child7_hi

theorem searchVal_eq_proj (u : Bool) (f : Nat) (b : List Cell) (mx : Bool)
    (a2 b2 : XVal) : (minimax u f b mx a2 b2).1.1 = searchVal u f b mx a2 b2 :=
  rfl

theorem empty_mm_max_eq_zero : mmVal 9 emptyBoard true = XVal.fin 0 := by
  have htri1 := minimax_tri 9 emptyBoard true (XVal.fin (-1)) (XVal.fin 0)
    (by decide)
  have hlo : XVal.le (XVal.fin 0) (mmVal 9 emptyBoard true) = true :=
    xle_trans empty_nw_max_lo (htri1.2.1 empty_nw_max_lo)
  exact xle_antisymm empty_mm_max_le_zero hlo

theorem empty_mm_min_ge_zero :
    XVal.le (XVal.fin 0) (mmVal 9 emptyBoard false) = true := by
  have h := mm_swap 9 emptyBoard false
  rw [swapB_empty] at h
  rw [h, show (!false) = true from rfl, empty_mm_max_eq_zero]
  decide

/-- C2: calling search (minimax) on the all-Empty 9-cell board with
maximizing = true and alpha = -infinity, beta = +infinity returns value 0. -/
theorem claim_C2_empty_board_value :
    (minimax USE_ALPHA_BETA 9 emptyBoard true XVal.negInf XVal.posInf).1.1
      = XVal.fin 0 := by
  rw [show USE_ALPHA_BETA = true from rfl, searchVal_eq_proj,
    ab_eq_mm 9 emptyBoard true]
  exact empty_mm_max_eq_zero

/-- C1: for every sequence of legal human (X) moves from the empty board,
when the engine (O) always answers with best_ai_move, no reachable terminal
board is a human win: every completed game is an engine win or a draw. -/
theorem claim_C1_engine_never_loses : noHumanWin 9 emptyBoard = true := by
  apply noHumanWin_of_value 9 emptyBoard rfl (by decide) (by decide)
  exact empty_mm_min_ge_zero
